import Mathlib

/-!
Verification development for the obsidian-auto-card-link plugin.

The TypeScript sources are embedded shallowly: JavaScript strings are
modelled as Lean `String` (with the character-level work done on
`String.data : List Char`), fallible operations return `Except`/`Option`,
and the asynchronous image-reachability probe of `fixImageUrl` is passed
in as a boolean oracle `String → Bool`.

External collaborators that are not part of the repository (Obsidian's
`parseYaml`, the platform `URL` constructor, the DOM query results used by
`LinkMetadataParser`, and the markdown host's fence stripping) are
modelled from the specification; each such definition carries a doc
comment starting with `Modelled from the spec:`.
-/

/-! ## Character helpers -/

/-- JavaScript whitespace (the `\s` character class of the regexes in
`src/regex.ts`): space, tab, line and page breaks and the common Unicode
space separators. -/
def jsWsChars : List Char :=
  [' ', '\t', '\n', '\r', '\u000B', '\u000C',
   '\u00A0', '\u1680', '\u2000', '\u2001', '\u2002',
   '\u2003', '\u2004', '\u2005', '\u2006', '\u2007',
   '\u2008', '\u2009', '\u200A', '\u2028', '\u2029',
   '\u202F', '\u205F', '\u3000', '\uFEFF']

/-- Whether a character belongs to the JavaScript whitespace class. -/
def isJsWs (c : Char) : Bool := jsWsChars.contains c

/-- ASCII lower-casing, used to model the `i` flag of the URL regexes. -/
def asciiLower (c : Char) : Char :=
  if 'A' ≤ c && c ≤ 'Z' then Char.ofNat (c.toNat + 32) else c

/-! ## Data model (`src/interfaces.ts`) -/

/-- The `LinkMetadata` interface of `src/interfaces.ts`: the sole domain
entity, with the required `url`/`title`, the optional `description`,
`host`, `favicon`, `image`, and the structural `indent`. -/
structure LinkMetadata where
  url : String
  title : String
  description : Option String := none
  host : Option String := none
  favicon : Option String := none
  image : Option String := none
  indent : Int
deriving DecidableEq, Repr

/-- The error taxonomy of `src/errors.ts`: `YamlParseError` and
`NoRequiredParamsError`, each carrying its message. -/
inductive CardError where
  | yamlParseError (msg : String)
  | noRequiredParamsError (msg : String)
deriving DecidableEq, Repr

/-- Message of the `YamlParseError` thrown by
`CodeBlockProcessor.parseLinkMetadataFromYaml`. -/
def yamlErrMsg : String := "failed to parse yaml. Check debug console for more detail."

/-- Message of the `NoRequiredParamsError` thrown by
`CodeBlockProcessor.parseLinkMetadataFromYaml`; it names the missing set
`[url, title]`. -/
def reqErrMsg : String := "required params[url, title] are not found."

/-! ## Serialization (`CodeBlockGenerator.genCodeBlock`) -/

namespace CodeBlockGenerator

/-- The `Array.prototype.join("\n")` used by `genCodeBlock`. -/
def joinLines : List String → String
  | [] => ""
  | [a] => a
  | a :: rest => a ++ "\n" ++ joinLines rest

/-- One optional `key: "value"` line pushed by `genCodeBlock` when the
field is truthy (present and non-empty). -/
def optLineQuoted (key : String) (v : Option String) : List String :=
  match v with
  | some d => if d = "" then [] else [key ++ ": \"" ++ d ++ "\""]
  | none => []

/-- One optional `key: value` line pushed by `genCodeBlock` when the field
is truthy (present and non-empty). -/
def optLinePlain (key : String) (v : Option String) : List String :=
  match v with
  | some x => if x = "" then [] else [key ++ ": " ++ x]
  | none => []

/-- The `key: value` lines pushed by `genCodeBlock` between the fences:
one line per truthy field, in the fixed order url, title, description,
host, favicon, image. -/
def cardBodyLines (m : LinkMetadata) : List String :=
  ["url: " ++ m.url, "title: \"" ++ m.title ++ "\""]
    ++ optLineQuoted "description" m.description
    ++ optLinePlain "host" m.host
    ++ optLinePlain "favicon" m.favicon
    ++ optLinePlain "image" m.image

/-- `CodeBlockGenerator.genCodeBlock`: builds the fenced `cardlink` block
text by pushing one line per truthy field, in the fixed order
url, title, description, host, favicon, image, and joining with `"\n"`. -/
def genCodeBlock (m : LinkMetadata) : String :=
  joinLines (["\n```cardlink"] ++ cardBodyLines m ++ ["```\n"])

end CodeBlockGenerator

/-! ## Asset URL resolution (`LinkMetadataParser.fixImageUrl`) -/

namespace LinkMetadataParser

/-- JavaScript `String.prototype.startsWith`, character by character. -/
def startsWithL : List Char → List Char → Bool
  | [], _ => true
  | _ :: _, [] => false
  | p :: ps, c :: cs => p = c && startsWithL ps cs

/-- String-level `startsWith` used by `fixImageUrl`. -/
def jsStartsWith (pre s : String) : Bool := startsWithL pre.data s.data

/-- `LinkMetadataParser.fixImageUrl`: resolves a protocol-relative or
root-relative asset reference against the page's hostname.  The
`checkUrlAccessibility` image-load probe is abstracted as the boolean
oracle `probe`. -/
def fixImageUrl (probe : String → Bool) (hostname : String) (url : Option String) : String :=
  match url with
  | none => ""
  | some u =>
    if jsStartsWith "//" u then
      let testUrlHttps := "https:" ++ u
      let testUrlHttp := "http:" ++ u
      if probe testUrlHttps then testUrlHttps
      else if probe testUrlHttp then testUrlHttp
      else u
    else if jsStartsWith "/" u ∧ hostname ≠ "" then
      let testUrlHttps := "https://" ++ hostname ++ u
      let testUrlHttp := "http://" ++ hostname ++ u
      let resUrlHttps := probe testUrlHttps
      let resUrlHttp := probe testUrlHttp
      if resUrlHttps then testUrlHttps
      else if resUrlHttp then testUrlHttp
      else u
    else u

end LinkMetadataParser

/-! ## Escaping (`LinkMetadataParser.parse` title/description normalization) -/

/-- First escaping pass of the Extractor: `replace(/\\/g, "\\\\")` doubles
every backslash. -/
def escBackslash : List Char → List Char
  | [] => []
  | c :: cs => if c = '\\' then '\\' :: '\\' :: escBackslash cs else c :: escBackslash cs

/-- Second escaping pass of the Extractor: `replace(/"/g, '\\"')` puts a
backslash before every double quote. -/
def escQuote : List Char → List Char
  | [] => []
  | c :: cs => if c = '"' then '\\' :: '"' :: escQuote cs else c :: escQuote cs

/-- Per-character view of the two sequential escaping passes. -/
def escChar (c : Char) : List Char :=
  if c = '\\' then ['\\', '\\'] else if c = '"' then ['\\', '"'] else [c]

/-- Per-character escaping of a whole character list. -/
def escList : List Char → List Char
  | [] => []
  | c :: cs => escChar c ++ escList cs

/-- The two sequential escaping passes amount to the per-character map. -/
theorem escQuote_escBackslash (l : List Char) : escQuote (escBackslash l) = escList l := by
  induction l with
  | nil => rfl
  | cons c cs ih =>
    by_cases hb : c = '\\'
    · subst hb; simp [escBackslash, escQuote, escList, escChar, ih]
    · by_cases hq : c = '"'
      · subst hq; simp [escBackslash, escQuote, escList, escChar, ih]
      · simp [escBackslash, escQuote, escList, escChar, hb, hq, ih]

/-- String-level escaping as performed on title/description by the
Extractor (backslashes doubled first, then quotes escaped). -/
def escapeStr (s : String) : String := ⟨escQuote (escBackslash s.data)⟩

/-! ## Line splitting and tab preprocessing
(`CodeBlockProcessor.parseLinkMetadataFromYaml`, pre-processing step) -/

namespace CodeBlockProcessor

/-- The `split(/\r?\n|\r|\n/g)` of `parseLinkMetadataFromYaml`: splits at
`\r\n`, lone `\r` or lone `\n`. -/
def splitLinesJS : List Char → List (List Char)
  | [] => [[]]
  | '\r' :: '\n' :: cs => [] :: splitLinesJS cs
  | '\r' :: cs => [] :: splitLinesJS cs
  | '\n' :: cs => [] :: splitLinesJS cs
  | c :: cs =>
    match splitLinesJS cs with
    | [] => [[c]]
    | l :: ls => (c :: l) :: ls

/-- The `join("\n")` re-assembling the preprocessed lines. -/
def joinNl : List (List Char) → List Char
  | [] => []
  | [l] => l
  | l :: ls => l ++ '\n' :: joinNl ls

/-- Number of leading tab characters of a line (the extent of the
`/^\t+/` match). -/
def leadingTabs (l : List Char) : Nat := (l.takeWhile (fun c => c = '\t')).length

/-- The per-line tab replacement with the closed-over `indent` state: each
line's leading tabs are replaced by as many spaces, and `indent` is set to
the tab count of the first tab-indented line. -/
def preprocessLines : List (List Char) → Int → List (List Char) × Int
  | [], ind => ([], ind)
  | l :: ls, ind =>
    let n := leadingTabs l
    let l' := if n = 0 then l else List.replicate n ' ' ++ l.drop n
    let ind' := if n = 0 then ind else if ind < 0 then (n : Int) else ind
    let (ls', ind'') := preprocessLines ls ind'
    (l' :: ls', ind'')

/-- The pre-processing step of `parseLinkMetadataFromYaml`: split into
lines, replace leading tabs with spaces recording the first tab count as
`indent` (initially `-1`), and re-join with `"\n"`. -/
def preprocessSource (source : String) : String × Int :=
  let (ls, ind) := preprocessLines (splitLinesJS source.data) (-1)
  (⟨joinNl ls⟩, ind)

/-! ## The YAML mapping parser (external collaborator) -/

/-- Result of the structured-text mapping parse, cast to
`Partial<LinkMetadata>`: each known key optionally maps to a string. -/
structure YamlDoc where
  url : Option String := none
  title : Option String := none
  description : Option String := none
  host : Option String := none
  favicon : Option String := none
  image : Option String := none
deriving DecidableEq, Repr

/-- Scanner for the body of a double-quoted scalar (after the opening
quote): a backslash escapes the next character, an unescaped quote closes
the scalar; returns the unescaped content and the remainder. -/
def dqScan : List Char → Option (List Char × List Char)
  | [] => none
  | '"' :: cs => some ([], cs)
  | '\\' :: [] => none
  | '\\' :: d :: cs => (dqScan cs).map (fun p => (d :: p.1, p.2))
  | c :: cs => (dqScan cs).map (fun p => (c :: p.1, p.2))

/-- Spaces trimmed from both ends of a mapping key (uniformly indented
blocks parse as a top-level mapping). -/
def trimSp (l : List Char) : List Char :=
  ((l.dropWhile (fun c => c = ' ')).reverse.dropWhile (fun c => c = ' ')).reverse

/-- Modelled from the spec: leading characters after which a plain scalar
is YAML-special rather than a plain string: `[` and `{` open flow
collections (an unquoted internal-link reference `[[…]]` becomes a nested
flow sequence), the remaining indicator characters open anchors, aliases,
tags, block scalars, quoting or comments, and number-like heads resolve
to numbers.  The set over-approximates: a scalar it flags may still
denote a string, but is then merely outside the modelled string-valued
subset, never collapsed to the wrong value. -/
def yamlSpecialLead (c : Char) : Bool :=
  c = '[' || c = '{' || c = ']' || c = '}' || c = '&' || c = '*' || c = '!' ||
  c = '|' || c = '>' || c = '%' || c = '@' || c = '`' || c = '\'' || c = '#' ||
  c = ',' || c = ':' || c = '-' || c = '+' || c = '.' || c = '~' || c = '?' ||
  c = ' ' || c = '\t' || c.isDigit

/-- Word-form plain scalars the YAML schemas resolve to booleans or null
rather than strings. -/
def yamlSpecialWords : List String :=
  ["true", "True", "TRUE", "false", "False", "FALSE",
   "null", "Null", "NULL", "yes", "Yes", "YES", "no", "No", "NO",
   "on", "On", "ON", "off", "Off", "OFF"]

/-- A plain scalar the mapping parser may hand back as a non-string value
instead of the verbatim text: a flow collection (such as an unquoted
internal-link reference), a number-like form, or a boolean/null word
literal. -/
def yamlSpecialPlain (v : List Char) : Bool :=
  (match v.head? with
   | none => true
   | some c => yamlSpecialLead c) ||
  (yamlSpecialWords.map String.data).contains v

/-- The value one mapping line hands back for its key: null, a string, or
a non-string (a flow collection or other YAML-special scalar — the spec's
type-mismatch path, where an unquoted internal link makes the parser hand
back a non-string that the processor later rejects when rendering). -/
inductive YamlFieldVal where
  | nullV : YamlFieldVal
  | strV : List Char → YamlFieldVal
  | special : List Char → YamlFieldVal
deriving DecidableEq, Repr

/-- Modelled from the spec: one line of the generic key-value mapping
grammar accepted by the structured-text parser (Obsidian `parseYaml`,
which is not part of this repository).  A blank line carries nothing; a
`key:` or `key: ` line maps the key to null; a `key: "…"` line maps it to
the unescaped double-quoted scalar, a string; a `key: value` line maps it
to the string `value` when the plain scalar is string-shaped, and to a
non-string value when it is YAML-special (a flow collection such as an
unquoted internal-link reference `[[…]]`, a number-like form or a word
literal: the parser hands back a non-string there); anything else is not
well-formed under the mapping grammar. -/
def lineParse (l : List Char) : Except Unit (Option (List Char × YamlFieldVal)) :=
  if l.all (fun c => c = ' ' || c = '\t') then .ok none
  else
    let k := l.takeWhile (fun c => c ≠ ':')
    let rest := l.drop k.length
    if rest = [] then .error ()
    else
      let rest' := rest.tail
      if rest' = [] then .ok (some (trimSp k, .nullV))
      else if rest'.head? ≠ some ' ' then .error ()
      else
        let v := rest'.tail
        if v = [] then .ok (some (trimSp k, .nullV))
        else if v.head? = some '"' then
          match dqScan v.tail with
          | some (content, []) => .ok (some (trimSp k, .strV content))
          | _ => .error ()
        else if yamlSpecialPlain v then .ok (some (trimSp k, .special v))
        else .ok (some (trimSp k, .strV v))

/-- Parses every line, dropping blank ones; fails when any line is not
well-formed under the mapping grammar. -/
def collectLines : List (List Char) → Except Unit (List (List Char × YamlFieldVal))
  | [] => .ok []
  | l :: ls =>
    match lineParse l with
    | .error _ => .error ()
    | .ok none => collectLines ls
    | .ok (some kv) =>
      match collectLines ls with
      | .error _ => .error ()
      | .ok acc => .ok (kv :: acc)

/-- A handed-back value as the `Partial<LinkMetadata>` string view can
carry it: null and strings are representable; a non-string is not — in
the program it flows into the record untyped and only fails later, when
the processor renders it — so a document storing a non-string under a
recognized key lies outside the modelled string-valued subset. -/
def applyVal : YamlFieldVal → Option (Option String)
  | .nullV => some none
  | .strV s => some (some ⟨s⟩)
  | .special _ => none

/-- Stores one parsed key-value pair into the `Partial<LinkMetadata>`
view; unknown keys are dropped by the cast, later occurrences of a key
overwrite earlier ones; a non-string value under a recognized key has no
representation in the view. -/
def applyKV (doc : YamlDoc) (key : List Char) (v : YamlFieldVal) : Option YamlDoc :=
  if key = "url".data then (applyVal v).map (fun o => { doc with url := o })
  else if key = "title".data then (applyVal v).map (fun o => { doc with title := o })
  else if key = "description".data then (applyVal v).map (fun o => { doc with description := o })
  else if key = "host".data then (applyVal v).map (fun o => { doc with host := o })
  else if key = "favicon".data then (applyVal v).map (fun o => { doc with favicon := o })
  else if key = "image".data then (applyVal v).map (fun o => { doc with image := o })
  else some doc

/-- Folds the collected key-value pairs into the view, left to right. -/
def applyAll : YamlDoc → List (List Char × YamlFieldVal) → Option YamlDoc
  | doc, [] => some doc
  | doc, p :: ps =>
    match applyKV doc p.1 p.2 with
    | none => none
    | some doc2 => applyAll doc2 ps

/-- Splits the (already `\r`-free) preprocessed text at `'\n'`. -/
def splitOnNl : List Char → List (List Char)
  | [] => [[]]
  | '\n' :: cs => [] :: splitOnNl cs
  | c :: cs =>
    match splitOnNl cs with
    | [] => [[c]]
    | l :: ls => (c :: l) :: ls

/-- Modelled from the spec: the structured-text mapping parser (Obsidian
`parseYaml`, an external collaborator) seen through the
`Partial<LinkMetadata>` cast: a document with no content lines is the
null document; otherwise every line must be a well-formed mapping line
and the key-value pairs are collected left to right.  A document that
hands back a non-string under a recognized key (an unquoted internal
link, another flow collection, or a YAML-special scalar) cannot be
carried by the string view and lies outside the modelled subset. -/
def parseYamlModel (s : String) : Except Unit (Option YamlDoc) :=
  match collectLines (splitOnNl s.data) with
  | .error _ => .error ()
  | .ok [] => .ok none
  | .ok (kv :: kvs) =>
    match applyAll {} (kv :: kvs) with
    | none => .error ()
    | some doc => .ok (some doc)

/-- `CodeBlockProcessor.parseLinkMetadataFromYaml`: tab-normalizes the
source recording `indent`, parses it as a mapping (`YamlParseError` on
failure), requires truthy `url` and `title` (`NoRequiredParamsError`
otherwise), and copies the remaining fields verbatim. -/
def parseLinkMetadataFromYaml (source : String) : Except CardError LinkMetadata :=
  match parseYamlModel (preprocessSource source).1 with
  | .error _ => .error (.yamlParseError yamlErrMsg)
  | .ok none => .error (.noRequiredParamsError reqErrMsg)
  | .ok (some y) =>
    match y.url, y.title with
    | some u, some t =>
      if u = "" ∨ t = "" then .error (.noRequiredParamsError reqErrMsg)
      else .ok { url := u, title := t, description := y.description,
                 host := y.host, favicon := y.favicon, image := y.image,
                 indent := (preprocessSource source).2 }
    | _, _ => .error (.noRequiredParamsError reqErrMsg)

end CodeBlockProcessor

/-! ## Metadata extraction (`LinkMetadataParser.parse`) -/

/-- Modelled from the spec: the markup-parsing collaborator.  The
Extractor only consults six DOM queries (`og:title`, `<title>`,
`og:description`, `name=description`, `link[rel=icon]` href, `og:image`),
so a parsed document is modelled by those six query results. -/
structure HtmlDoc where
  ogTitle : Option String := none
  titleText : Option String := none
  ogDescription : Option String := none
  metaDescription : Option String := none
  faviconHref : Option String := none
  ogImage : Option String := none
deriving DecidableEq, Repr

namespace LinkMetadataParser

/-- JavaScript truthiness on an optional string: `undefined` and `""` are
falsy. -/
def truthy : Option String → Option String
  | some s => if s = "" then none else some s
  | none => none

/-- The `replace(/\r\n|\n|\r/g, "")` pass: removes every newline
variant. -/
def stripNl (l : List Char) : List Char := l.filter (fun c => !(c = '\r' || c = '\n'))

/-- JavaScript `String.prototype.trim`. -/
def jsTrim (l : List Char) : List Char :=
  ((l.dropWhile isJsWs).reverse.dropWhile isJsWs).reverse

/-- The normalization applied to title and description by
`LinkMetadataParser.parse`: strip newlines, escape backslashes, escape
quotes, trim. -/
def normalizeMeta (s : String) : String := ⟨jsTrim (escQuote (escBackslash (stripNl s.data)))⟩

/-- Finds "://" in the URL and returns what follows it. -/
def afterScheme : List Char → Option (List Char)
  | ':' :: '/' :: '/' :: rest => some rest
  | _ :: cs => afterScheme cs
  | [] => none

/-- Modelled from the spec: the platform URL parser's hostname extraction
(`new URL(url).hostname`): the segment after `"://"` up to the first
path, port, query or fragment delimiter. -/
def hostnameOf (u : String) : String :=
  match afterScheme u.data with
  | none => ""
  | some r => ⟨r.takeWhile (fun c => !(c = '/' || c = ':' || c = '?' || c = '#'))⟩

/-- `LinkMetadataParser.getTitle`: prefer the truthy `og:title` content,
else the truthy `<title>` text. -/
def getTitle (doc : HtmlDoc) : Option String :=
  match truthy doc.ogTitle with
  | some t => some t
  | none => truthy doc.titleText

/-- `LinkMetadataParser.getDescription`: prefer the truthy
`og:description` content, else the truthy `name=description` content. -/
def getDescription (doc : HtmlDoc) : Option String :=
  match truthy doc.ogDescription with
  | some d => some d
  | none => truthy doc.metaDescription

/-- `LinkMetadataParser.parse`: normalizes the preferred title (absence or
emptiness aborts with no metadata), normalizes the preferred description,
takes the hostname of the source URL, resolves the truthy favicon and
image references, and builds the record with `indent := 0`. -/
def parse (probe : String → Bool) (url : String) (doc : HtmlDoc) : Option LinkMetadata :=
  match (getTitle doc).map normalizeMeta with
  | none => none
  | some t =>
    if t = "" then none
    else
      let hostname := hostnameOf url
      some { url := url
             title := t
             description := (getDescription doc).map normalizeMeta
             host := some hostname
             favicon :=
               match truthy doc.faviconHref with
               | some f => some (fixImageUrl probe hostname (some f))
               | none => none
             image :=
               match truthy doc.ogImage with
               | some i => some (fixImageUrl probe hostname (some i))
               | none => none
             indent := 0 }

end LinkMetadataParser

/-- Modelled from the spec: the markdown host hands the code block
processor the source between the fences, that is the serialized block
without its leading `"\n```cardlink\n"` (13 characters) and trailing
`"\n```\n"` (5 characters). -/
def innerOfBlock (s : String) : String :=
  ⟨(s.data.drop 13).take ((s.data.drop 13).length - 5)⟩

/-! ## URL classification (`src/regex.ts` urlRegex and `CheckIf.isUrl`) -/

/-- Case-insensitive literal matching (the `i` flag): strips `pat` from
the front of `l`. -/
def stripLitCI : List Char → List Char → Option (List Char)
  | [], l => some l
  | _ :: _, [] => none
  | p :: ps, c :: cs => if asciiLower c = asciiLower p then stripLitCI ps cs else none

/-- Whether `l` starts with the literal `pat`, case-insensitively. -/
def startsLitCI (pat l : List Char) : Bool := (stripLitCI pat l).isSome

/-- The `[a-zA-Z0-9]` class of the URL regex. -/
def isAlnumB (c : Char) : Bool :=
  ('a' ≤ c && c ≤ 'z') || ('A' ≤ c && c ≤ 'Z') || ('0' ≤ c && c ≤ '9')

/-- The `[a-zA-Z0-9-]` class of the URL regex. -/
def isHostMid (c : Char) : Bool := isAlnumB c || c = '-'

/-- The trailing `[^\s]{2,}$` of the URL regex: at least two characters,
none of them whitespace, up to the end of the string. -/
def tailOk (l : List Char) : Bool := 2 ≤ l.length && l.all (fun c => !isJsWs c)

/-- After the domain label: a literal dot, then the `[^\s]{2,}$` tail. -/
def afterLabel : List Char → Bool
  | [] => false
  | c :: rest => c = '.' && tailOk rest

/-- The hyphen-tolerant label `[a-zA-Z0-9][a-zA-Z0-9-]+[a-zA-Z0-9]`. -/
def labOk3 (lab : List Char) : Bool :=
  match lab with
  | [] => false
  | c :: rest =>
    isAlnumB c && 2 ≤ rest.length && rest.dropLast.all isHostMid &&
    (match rest.getLast? with
     | some d => isAlnumB d
     | none => false)

/-- The simple label `[a-zA-Z0-9]+`. -/
def labOk1 (lab : List Char) : Bool := !lab.isEmpty && lab.all isAlnumB

/-- The domain part of every regex alternative: some split into a label
(either variant), a dot, and the non-whitespace tail. -/
def hostPart (l : List Char) : Bool :=
  (List.range (l.length + 1)).any (fun k =>
    (labOk3 (l.take k) || labOk1 (l.take k)) && afterLabel (l.drop k))

/-- The `(?:www\.|(?!www))` group: consume a literal `www.`, or consume
nothing provided the rest does not start with `www`. -/
def wwwOpt (l : List Char) : Option (List Char) :=
  match stripLitCI "www.".data l with
  | some r => some r
  | none => if startsLitCI "www".data l then none else some l

/-- The scheme-bearing alternatives `https?:\/\/(?:www\.|(?!www))…` of
`urlRegex` (with both label variants unioned). -/
def matchHttpAlt (l : List Char) : Bool :=
  match stripLitCI "http".data l with
  | none => false
  | some r0 =>
    let r1 :=
      match stripLitCI "s://".data r0 with
      | some r => some r
      | none => stripLitCI "://".data r0
    match r1 with
    | none => false
    | some r2 =>
      match wwwOpt r2 with
      | none => false
      | some r3 => hostPart r3

/-- The bare `www\.…` alternatives of `urlRegex` (with both label
variants unioned). -/
def matchWwwAlt (l : List Char) : Bool :=
  match stripLitCI "www.".data l with
  | none => false
  | some r => hostPart r

/-- The anchored `urlRegex` of `src/regex.ts` over a character list: the
union of the four alternatives. -/
def matchUrlL (l : List Char) : Bool := matchHttpAlt l || matchWwwAlt l

/-- The anchored `urlRegex` of `src/regex.ts` as a whole-string match. -/
def urlRegexTest (s : String) : Bool := matchUrlL s.data

namespace CheckIf

/-- `CheckIf.isUrl`: tests the whole text against the anchored
`urlRegex`. -/
def isUrl (text : String) : Bool := urlRegexTest text

end CheckIf

/-! ## Editor positions (`EditorExtensions.getEditorPositionFromIndex`) -/

namespace EditorExtensions

/-- The `indexOf`-stepping loop of `getEditorPositionFromIndex`: walks the
prefix counting newlines in `l` and remembering the index of the last one
in `off` (initially `-1`). -/
def nlScanAux : List Char → Nat → Nat → Int → Nat × Int
  | [], _, l, off => (l, off)
  | c :: cs, i, l, off =>
    if c = '\n' then nlScanAux cs (i + 1) (l + 1) (i : Int) else nlScanAux cs (i + 1) l off

/-- `EditorExtensions.getEditorPositionFromIndex`: the line is the number
of newlines in `content.substr(0, index)`, the column the length of
`content.substr(offset, index - offset)` where `offset` is one past the
last such newline. -/
def getEditorPositionFromIndex (content : String) (index : Nat) : Nat × Nat :=
  let substr := content.data.take index
  let p := nlScanAux substr 0 0 (-1)
  let offset := (p.2 + 1).toNat
  let ch := ((content.data.drop offset).take (index - offset)).length
  (p.1, ch)

end EditorExtensions

instance {e a : Type} [DecidableEq e] [DecidableEq a] : DecidableEq (Except e a) := fun x y =>
  match x, y with
  | .ok v, .ok w =>
    if h : v = w then isTrue (by rw [h]) else isFalse (fun hc => by cases hc; exact h rfl)
  | .error v, .error w =>
    if h : v = w then isTrue (by rw [h]) else isFalse (fun hc => by cases hc; exact h rfl)
  | .ok _, .error _ => isFalse (fun hc => Except.noConfusion hc)
  | .error _, .ok _ => isFalse (fun hc => Except.noConfusion hc)

/-! ## Claims C3 and C4: asset URL resolution -/

/-- C3 counterexample: for the protocol-relative reference
`//cdn.example.com/img.png` with both probes failing, `fixImageUrl`
returns the reference unchanged, not the https-prefixed form the claim
requires. -/
theorem c3_counterexample :
    LinkMetadataParser.fixImageUrl (fun _ => false) "example.com"
        (some "//cdn.example.com/img.png") = "//cdn.example.com/img.png" ∧
    ("//cdn.example.com/img.png" : String) ≠ "https://cdn.example.com/img.png" := by
  constructor
  · rfl
  · decide

/-- C3 (amended): for a protocol-relative reference `//host/path`, the
resolver returns the https-prefixed form when its probe succeeds, else
the http-prefixed form when that probe succeeds, and when both probes
fail it returns the original protocol-relative reference unchanged. -/
theorem c3_protocol_relative (probe : String → Bool) (hostname u : String)
    (h : LinkMetadataParser.jsStartsWith "//" u = true) :
    (probe ("https:" ++ u) = true →
      LinkMetadataParser.fixImageUrl probe hostname (some u) = "https:" ++ u) ∧
    (probe ("https:" ++ u) = false → probe ("http:" ++ u) = true →
      LinkMetadataParser.fixImageUrl probe hostname (some u) = "http:" ++ u) ∧
    (probe ("https:" ++ u) = false → probe ("http:" ++ u) = false →
      LinkMetadataParser.fixImageUrl probe hostname (some u) = u) := by
  refine ⟨fun h1 => ?_, fun h1 h2 => ?_, fun h1 h2 => ?_⟩ <;>
    simp [LinkMetadataParser.fixImageUrl, h, h1]
  · simp [h2]
  · simp [h2]

/-- C3 witness: concrete applications of `c3_protocol_relative` with an
always-failing probe and with an https-accepting probe. -/
theorem c3_protocol_relative_witness :
    LinkMetadataParser.fixImageUrl (fun _ => false) "example.com" (some "//a.bc/x")
        = "//a.bc/x" ∧
    LinkMetadataParser.fixImageUrl (fun _ => true) "example.com" (some "//a.bc/x")
        = "https://a.bc/x" :=
  ⟨(c3_protocol_relative (fun _ => false) "example.com" "//a.bc/x" (by decide)).2.2 rfl rfl,
   (c3_protocol_relative (fun _ => true) "example.com" "//a.bc/x" (by decide)).1 rfl⟩

/-- C4: for a root-relative reference `/path` (not protocol-relative)
with a non-empty hostname, the resolver returns `https://host/path` when
that probe succeeds, else `http://host/path` when that probe succeeds,
else the original relative reference unchanged. -/
theorem c4_root_relative (probe : String → Bool) (hostname u : String)
    (h1 : LinkMetadataParser.jsStartsWith "/" u = true)
    (h2 : LinkMetadataParser.jsStartsWith "//" u = false)
    (h3 : hostname ≠ "") :
    (probe ("https://" ++ hostname ++ u) = true →
      LinkMetadataParser.fixImageUrl probe hostname (some u) = "https://" ++ hostname ++ u) ∧
    (probe ("https://" ++ hostname ++ u) = false →
      probe ("http://" ++ hostname ++ u) = true →
      LinkMetadataParser.fixImageUrl probe hostname (some u) = "http://" ++ hostname ++ u) ∧
    (probe ("https://" ++ hostname ++ u) = false →
      probe ("http://" ++ hostname ++ u) = false →
      LinkMetadataParser.fixImageUrl probe hostname (some u) = u) := by
  refine ⟨fun g1 => ?_, fun g1 g2 => ?_, fun g1 g2 => ?_⟩ <;>
    simp [LinkMetadataParser.fixImageUrl, h1, h2, h3, g1]
  · simp [g2]
  · simp [g2]

/-- C4 witness: with hostname `example.com` and reference `/img.png`,
when only the http origin is reachable the result is
`http://example.com/img.png`, and when neither is reachable the result is
`/img.png` unchanged. -/
theorem c4_root_relative_witness :
    LinkMetadataParser.fixImageUrl (fun s => s = "http://example.com/img.png") "example.com"
        (some "/img.png") = "http://example.com/img.png" ∧
    LinkMetadataParser.fixImageUrl (fun _ => false) "example.com"
        (some "/img.png") = "/img.png" :=
  ⟨(c4_root_relative (fun s => s = "http://example.com/img.png") "example.com" "/img.png"
      (by decide) (by decide) (by decide)).2.1 (by decide) (by decide),
   (c4_root_relative (fun _ => false) "example.com" "/img.png"
      (by decide) (by decide) (by decide)).2.2 rfl rfl⟩

/-! ## Claim C6: serialization format -/

namespace CodeBlockGenerator

theorem joinLines_cons_ne (a : String) (l : List String) (h : l ≠ []) :
    joinLines (a :: l) = a ++ "\n" ++ joinLines l := by
  cases l with
  | nil => exact absurd rfl h
  | cons b bs => rfl

theorem joinLines_append_singleton (l : List String) (b : String) (h : l ≠ []) :
    joinLines (l ++ [b]) = joinLines l ++ "\n" ++ b := by
  induction l with
  | nil => exact absurd rfl h
  | cons a as ih =>
    cases as with
    | nil => rfl
    | cons c cs =>
      rw [List.cons_append, joinLines_cons_ne a ((c :: cs) ++ [b]) (by simp),
          joinLines_cons_ne a (c :: cs) (by simp), ih (by simp)]
      simp only [String.append_assoc]

/-- The serialized block decomposes into the leading blank line with the
opening tagged fence, the joined body lines, and the closing fence with
the trailing blank line. -/
theorem genCodeBlock_decomp (m : LinkMetadata) :
    genCodeBlock m = "\n```cardlink\n" ++ joinLines (cardBodyLines m) ++ "\n```\n" := by
  have hne : cardBodyLines m ≠ [] := by simp [cardBodyLines]
  have hne2 : cardBodyLines m ++ ["```\n"] ≠ [] := by simp
  unfold genCodeBlock
  simp only [List.append_assoc, List.singleton_append, List.cons_append, List.nil_append]
  rw [joinLines_cons_ne _ _ hne2, joinLines_append_singleton _ _ hne]
  rw [show ("\n```cardlink" ++ "\n" : String) = "\n```cardlink\n" by decide]
  simp only [String.append_assoc]
  rw [show ("\n" ++ "```\n" : String) = "\n```\n" by decide]

end CodeBlockGenerator

/-- Spec-side rendering of the body lines of claim C6: one `key: value`
line per present field, in the fixed order url, title, description, host,
favicon, image, with the title and description values wrapped in double
quotes and absent optional fields omitted entirely. -/
def specFieldLines (m : LinkMetadata) : List String :=
  ["url: " ++ m.url, "title: \"" ++ m.title ++ "\""]
    ++ (m.description.map (fun d => "description: \"" ++ d ++ "\"")).toList
    ++ (m.host.map (fun h => "host: " ++ h)).toList
    ++ (m.favicon.map (fun f => "favicon: " ++ f)).toList
    ++ (m.image.map (fun i => "image: " ++ i)).toList

/-- Spec-side rendering of the body lines after the correction of claim
C6: one `key: value` line per present and non-empty field — JavaScript
truthiness makes the serializer treat a present-but-empty optional value
exactly like an absent one. -/
def specTruthyFieldLines (m : LinkMetadata) : List String :=
  ["url: " ++ m.url, "title: \"" ++ m.title ++ "\""]
    ++ ((m.description.filter (fun x => x != "")).map
          (fun x => "description: \"" ++ x ++ "\"")).toList
    ++ ((m.host.filter (fun x => x != "")).map (fun x => "host: " ++ x)).toList
    ++ ((m.favicon.filter (fun x => x != "")).map (fun x => "favicon: " ++ x)).toList
    ++ ((m.image.filter (fun x => x != "")).map (fun x => "image: " ++ x)).toList

/-- The truthiness guard of an optional quoted line, as a filter on the
optional value. -/
theorem optLineQuoted_filter (key : String) (v : Option String) :
    CodeBlockGenerator.optLineQuoted key v =
      ((v.filter (fun x => x != "")).map (fun x => key ++ ": \"" ++ x ++ "\"")).toList := by
  cases v with
  | none => rfl
  | some a =>
    by_cases ha : a = ""
    · simp [CodeBlockGenerator.optLineQuoted, Option.filter, ha]
    · simp [CodeBlockGenerator.optLineQuoted, Option.filter, ha]

/-- The truthiness guard of an optional plain line, as a filter on the
optional value. -/
theorem optLinePlain_filter (key : String) (v : Option String) :
    CodeBlockGenerator.optLinePlain key v =
      ((v.filter (fun x => x != "")).map (fun x => key ++ ": " ++ x)).toList := by
  cases v with
  | none => rfl
  | some a =>
    by_cases ha : a = ""
    · simp [CodeBlockGenerator.optLinePlain, Option.filter, ha]
    · simp [CodeBlockGenerator.optLinePlain, Option.filter, ha]

/-- C6 counterexample: a record with a present-but-empty description gets
no `description:` line — JavaScript truthiness drops the empty value — so
the serialized block is not one line per present field: it differs from
the claim's rendering, which keeps a line for every present field. -/
theorem c6_counterexample :
    CodeBlockGenerator.genCodeBlock
        { url := "https://a.bc", title := "T", description := some "", indent := 0 } =
      "\n```cardlink\nurl: https://a.bc\ntitle: \"T\"\n```\n" ∧
    CodeBlockGenerator.genCodeBlock
        { url := "https://a.bc", title := "T", description := some "", indent := 0 } ≠
      "\n```cardlink\n" ++
        CodeBlockGenerator.joinLines
          (specFieldLines
            { url := "https://a.bc", title := "T", description := some "", indent := 0 })
        ++ "\n```\n" := by
  constructor
  · decide
  · decide

/-- C6 (amended): serialization is deterministic (it is a function of the
record) and emits one `key: value` line per present and non-empty field
in the fixed order url, title, description, host, favicon, image, quoting
title and description, inside triple-backtick fences tagged `cardlink`
with a leading and a trailing blank line; a present-but-empty optional
field is omitted exactly like an absent one (JavaScript truthiness). -/
theorem c6_serialize_format (m : LinkMetadata) :
    CodeBlockGenerator.genCodeBlock m =
      "\n```cardlink\n" ++ CodeBlockGenerator.joinLines (specTruthyFieldLines m) ++ "\n```\n" := by
  rw [CodeBlockGenerator.genCodeBlock_decomp]
  have hbody : CodeBlockGenerator.cardBodyLines m = specTruthyFieldLines m := by
    unfold CodeBlockGenerator.cardBodyLines specTruthyFieldLines
    rw [optLineQuoted_filter, optLinePlain_filter, optLinePlain_filter, optLinePlain_filter]
    rfl
  rw [hbody]

/-- C6 witness: a concrete record with a description and image but no host
or favicon serializes to the canonical truthy-field block. -/
theorem c6_serialize_format_witness :
    CodeBlockGenerator.genCodeBlock
        { url := "https://a.bc", title := "T", description := some "D",
          image := some "https://a.bc/i.png", indent := 0 } =
      "\n```cardlink\n" ++
        CodeBlockGenerator.joinLines
          (specTruthyFieldLines
            { url := "https://a.bc", title := "T", description := some "D",
              image := some "https://a.bc/i.png", indent := 0 }) ++ "\n```\n" :=
  c6_serialize_format _

/-! ## Claim C5: extraction scenario -/

/-- C5 counterexample: extracting `https://example.com` from markup with
only an `og:title` yields a record that carries `host := example.com`, and
serializing that record emits a `host:` line as well, so the block does
not consist of exactly the `url` and `title` lines. -/
theorem c5_counterexample :
    LinkMetadataParser.parse (fun _ => false) "https://example.com"
        { ogTitle := some "Example Title" } =
      some { url := "https://example.com", title := "Example Title",
             host := some "example.com", indent := 0 } ∧
    CodeBlockGenerator.genCodeBlock
        { url := "https://example.com", title := "Example Title",
          host := some "example.com", indent := 0 } =
      "\n```cardlink\nurl: https://example.com\ntitle: \"Example Title\"\nhost: example.com\n```\n" ∧
    ("\n```cardlink\nurl: https://example.com\ntitle: \"Example Title\"\nhost: example.com\n```\n" : String) ≠
      "\n```cardlink\nurl: https://example.com\ntitle: \"Example Title\"\n```\n" :=
  ⟨by decide, by decide, by decide⟩

/-- C5 (amended): extracting metadata for `https://example.com` from
markup containing only the `og:title` meta tag yields the record with
url `https://example.com`, title `Example Title`, host `example.com` and
description, favicon and image absent, and serializing that record
produces the block containing exactly the url, title and host lines. -/
theorem c5_scenario (probe : String → Bool) :
    LinkMetadataParser.parse probe "https://example.com"
        { ogTitle := some "Example Title" } =
      some { url := "https://example.com", title := "Example Title",
             host := some "example.com", indent := 0 } ∧
    CodeBlockGenerator.genCodeBlock
        { url := "https://example.com", title := "Example Title",
          host := some "example.com", indent := 0 } =
      "\n```cardlink\nurl: https://example.com\ntitle: \"Example Title\"\nhost: example.com\n```\n" :=
  ⟨by rfl, by decide⟩

/-- C5 witness: the scenario at a concrete probe. -/
theorem c5_scenario_witness :
    LinkMetadataParser.parse (fun _ => true) "https://example.com"
        { ogTitle := some "Example Title" } =
      some { url := "https://example.com", title := "Example Title",
             host := some "example.com", indent := 0 } :=
  (c5_scenario (fun _ => true)).1

/-! ## Claims C2 and C10: parse error taxonomy -/

/-- C10: whenever the mapping parse of the preprocessed source succeeds
with a null document (for example on an empty or whitespace-only source),
`parseLinkMetadataFromYaml` throws `NoRequiredParamsError`, not
`YamlParseError`. -/
theorem c10_null_mapping (s : String)
    (h : CodeBlockProcessor.parseYamlModel (CodeBlockProcessor.preprocessSource s).1 = .ok none) :
    CodeBlockProcessor.parseLinkMetadataFromYaml s =
      .error (.noRequiredParamsError reqErrMsg) := by
  unfold CodeBlockProcessor.parseLinkMetadataFromYaml
  simp [h]

/-- C10 witness: the whitespace-only source parses to the null document
and is classified as missing required params. -/
theorem c10_null_mapping_witness :
    CodeBlockProcessor.parseYamlModel (CodeBlockProcessor.preprocessSource "  \n ").1 = .ok none ∧
    CodeBlockProcessor.parseLinkMetadataFromYaml "  \n " =
      .error (.noRequiredParamsError reqErrMsg) :=
  ⟨by decide, c10_null_mapping "  \n " (by decide)⟩

/-! ## Claim C7: tab preprocessing and indent capture -/

namespace CodeBlockProcessor

/-- Spec-side statement of the per-line transformation of claim C7: the
leading tabs of a line are replaced by an equal number of spaces, all
other characters unchanged. -/
def stripLeadingTabs (l : List Char) : List Char :=
  List.replicate (leadingTabs l) ' ' ++ l.drop (leadingTabs l)

/-- Spec-side statement of the indent capture of claim C7: the number of
leading tabs of the first tab-indented line, or the sentinel `-1` when no
line begins with a tab. -/
def firstIndent (ls : List (List Char)) : Int :=
  match ls.find? (fun l => leadingTabs l != 0) with
  | some l => (leadingTabs l : Int)
  | none => -1

/-- The stateful fold of the pre-processing step, characterized: the lines
are mapped through `stripLeadingTabs`, and a negative incoming `indent`
is replaced by the tab count of the first tab-indented line. -/
theorem preprocessLines_spec (ls : List (List Char)) (ind : Int) :
    preprocessLines ls ind =
      (ls.map stripLeadingTabs,
       if ind < 0 then
         match ls.find? (fun l => leadingTabs l != 0) with
         | some l => (leadingTabs l : Int)
         | none => ind
       else ind) := by
  induction ls generalizing ind with
  | nil => simp [preprocessLines]
  | cons l ls ih =>
    by_cases hn : leadingTabs l = 0
    · have hb : (leadingTabs l != 0) = false := by simp [hn]
      have hstrip : stripLeadingTabs l = l := by simp [stripLeadingTabs, hn]
      simp [preprocessLines, hn, hb, ih, hstrip, List.find?]
    · have hb : (leadingTabs l != 0) = true := by simp [hn]
      have hpos : ¬ ((leadingTabs l : Int) < 0) := by omega
      by_cases hi : ind < 0
      · simp [preprocessLines, hn, hb, hi, ih, hpos, stripLeadingTabs, List.find?]
      · simp [preprocessLines, hn, hb, hi, ih, stripLeadingTabs, List.find?]

end CodeBlockProcessor

/-- C7: pre-processing splits the block into lines and replaces exactly
the leading tabs of every line by an equal number of spaces, leaving all
other characters unchanged; the computed indent is the tab count of the
first tab-indented line, unchanged by later lines, and the sentinel `-1`
when no line begins with a tab; a successfully parsed record carries that
indent. -/
theorem c7_tab_preprocessing (s : String) :
    CodeBlockProcessor.preprocessSource s =
      (⟨CodeBlockProcessor.joinNl ((CodeBlockProcessor.splitLinesJS s.data).map
          CodeBlockProcessor.stripLeadingTabs)⟩,
        CodeBlockProcessor.firstIndent (CodeBlockProcessor.splitLinesJS s.data)) ∧
    (∀ m : LinkMetadata, CodeBlockProcessor.parseLinkMetadataFromYaml s = .ok m →
      m.indent = CodeBlockProcessor.firstIndent (CodeBlockProcessor.splitLinesJS s.data)) := by
  have h1 : CodeBlockProcessor.preprocessSource s =
      (⟨CodeBlockProcessor.joinNl ((CodeBlockProcessor.splitLinesJS s.data).map
          CodeBlockProcessor.stripLeadingTabs)⟩,
        CodeBlockProcessor.firstIndent (CodeBlockProcessor.splitLinesJS s.data)) := by
    unfold CodeBlockProcessor.preprocessSource
    rw [CodeBlockProcessor.preprocessLines_spec]
    unfold CodeBlockProcessor.firstIndent
    cases hf : (CodeBlockProcessor.splitLinesJS s.data).find? (fun l => CodeBlockProcessor.leadingTabs l != 0) with
    | none => simp
    | some l => simp
  refine ⟨h1, fun m hm => ?_⟩
  unfold CodeBlockProcessor.parseLinkMetadataFromYaml at hm
  cases hy : CodeBlockProcessor.parseYamlModel (CodeBlockProcessor.preprocessSource s).1 with
  | error e => rw [hy] at hm; exact absurd hm (by simp)
  | ok yo =>
    cases yo with
    | none => rw [hy] at hm; exact absurd hm (by simp)
    | some y =>
      rw [hy] at hm
      rcases y with ⟨ou, ot, d, h, f, i⟩
      cases ou with
      | none => exact absurd hm (by simp)
      | some u =>
        cases ot with
        | none => exact absurd hm (by simp)
        | some t =>
          by_cases hu : u = ""
          · simp [hu] at hm
          · by_cases ht : t = ""
            · simp [ht] at hm
            · simp only [hu, ht, or_self, if_neg, not_false_eq_true, false_or, or_false,
                if_false] at hm
              have := Except.ok.inj hm
              rw [← this, h1]

/-- C7 witness: a block whose two lines are tab-indented once parses to a
record with indent `1`, the tab count of the first indented line. -/
theorem c7_tab_preprocessing_witness :
    ({ url := "x", title := "y", indent := 1 } : LinkMetadata).indent =
      CodeBlockProcessor.firstIndent
        (CodeBlockProcessor.splitLinesJS ("\turl: x\n\ttitle: y" : String).data) :=
  (c7_tab_preprocessing "\turl: x\n\ttitle: y").2 _ (by decide)

/-! ## Claim C9: index to line/column mapping -/

theorem takeWhile_append_of_all {α : Type} {p : α → Bool} (l m : List α)
    (h : ∀ a ∈ l, p a = true) :
    (l ++ m).takeWhile p = l ++ m.takeWhile p := by
  induction l with
  | nil => simp
  | cons a as ih =>
    have ha : p a = true := h a (by simp)
    have ih' := ih (fun x hx => h x (by simp [hx]))
    simp [List.takeWhile_cons, ha, ih']

theorem takeWhile_eq_self_of_all {α : Type} {p : α → Bool} (l : List α)
    (h : ∀ a ∈ l, p a = true) : l.takeWhile p = l := by
  have := takeWhile_append_of_all (p := p) l [] h
  simpa using this

theorem takeWhile_append_of_exists {α : Type} {p : α → Bool} (l m : List α)
    (h : ∃ a ∈ l, p a = false) :
    (l ++ m).takeWhile p = l.takeWhile p := by
  induction l with
  | nil => simp at h
  | cons a as ih =>
    by_cases hpa : p a = true
    · rcases h with ⟨x, hx, hpx⟩
      rcases List.mem_cons.1 hx with rfl | hxs
      · rw [hpa] at hpx; cases hpx
      · simp [List.takeWhile_cons, hpa, ih ⟨x, hxs, hpx⟩]
    · have hf : p a = false := by
        cases hp : p a
        · rfl
        · exact absurd hp hpa
      simp [List.takeWhile_cons, hf]

theorem length_takeWhile_le {α : Type} (p : α → Bool) (l : List α) :
    (l.takeWhile p).length ≤ l.length := by
  induction l with
  | nil => simp
  | cons a as ih =>
    by_cases hpa : p a = true
    · simp [List.takeWhile_cons, hpa]; omega
    · have hf : p a = false := by
        cases hp : p a
        · rfl
        · exact absurd hp hpa
      simp [List.takeWhile_cons, hf]

theorem length_takeWhile_ne_nl_lt {l : List Char} (h : '\n' ∈ l) :
    (l.takeWhile (fun c => c != '\n')).length < l.length := by
  induction l with
  | nil => cases h
  | cons a as ih =>
    by_cases ha : a = '\n'
    · subst ha
      simp [List.takeWhile_cons]
    · rcases List.mem_cons.1 h with h1 | h2
      · exact absurd h1.symm ha
      · have hb : (a != '\n') = true := by simp [ha]
        simp only [List.takeWhile_cons, hb, if_true, List.length_cons]
        exact Nat.succ_lt_succ (ih h2)

namespace EditorExtensions

/-- The loop of `getEditorPositionFromIndex`, characterized: it returns
the newline count added to the accumulator, and the absolute index of the
last newline (the incoming `off` when there is none). -/
theorem nlScanAux_spec (l : List Char) (i cnt : Nat) (off : Int) :
    nlScanAux l i cnt off =
      (cnt + l.count '\n',
       if l.count '\n' = 0 then off
       else (i : Int) + ((l.length - (l.reverse.takeWhile (fun c => c != '\n')).length : Nat) : Int) - 1) := by
  induction l generalizing i cnt off with
  | nil => simp [nlScanAux]
  | cons c cs ih =>
    have hr_le : (cs.reverse.takeWhile (fun c => c != '\n')).length ≤ cs.length := by
      calc (cs.reverse.takeWhile (fun c => c != '\n')).length
          ≤ cs.reverse.length := length_takeWhile_le _ _
        _ = cs.length := List.length_reverse cs
    by_cases hc : c = '\n'
    · subst hc
      have hstep : nlScanAux ('\n' :: cs) i cnt off = nlScanAux cs (i + 1) (cnt + 1) (i : Int) := by
        simp [nlScanAux]
      rw [hstep, ih]
      have hcnt : ('\n' :: cs).count '\n' = cs.count '\n' + 1 := by simp [List.count_cons]
      rw [hcnt]
      by_cases hcs : cs.count '\n' = 0
      · have hall : ∀ a ∈ cs.reverse, (fun c => c != '\n') a = true := by
          intro a ha
          have hmem : a ∈ cs := List.mem_reverse.1 ha
          have hne : a ≠ '\n' := fun heq => (List.count_eq_zero.1 hcs) (heq ▸ hmem)
          simp [hne]
        have hrun : (('\n' :: cs).reverse.takeWhile (fun c => c != '\n')).length = cs.length := by
          rw [List.reverse_cons, takeWhile_append_of_all _ _ hall]
          simp [List.takeWhile_cons]
        rw [hcs, hrun]
        simp only [Prod.mk.injEq, List.length_cons]
        refine ⟨trivial, ?_⟩
        rw [if_pos trivial, if_neg (by omega : ¬ (0 + 1 = 0))]
        omega
      · have hmem : '\n' ∈ cs := List.count_pos_iff.1 (by omega)
        have hex : ∃ a ∈ cs.reverse, (fun c => c != '\n') a = false := by
          exact ⟨'\n', List.mem_reverse.2 hmem, by simp⟩
        have hrun : (('\n' :: cs).reverse.takeWhile (fun c => c != '\n')).length =
            (cs.reverse.takeWhile (fun c => c != '\n')).length := by
          rw [List.reverse_cons, takeWhile_append_of_exists _ _ hex]
        rw [hrun]
        simp only [Prod.mk.injEq, List.length_cons]
        refine ⟨by omega, ?_⟩
        rw [if_neg hcs, if_neg (by omega : ¬ (cs.count '\n' + 1 = 0))]
        omega
    · have hstep : nlScanAux (c :: cs) i cnt off = nlScanAux cs (i + 1) cnt off := by
        simp [nlScanAux, hc]
      rw [hstep, ih]
      have hcnt : (c :: cs).count '\n' = cs.count '\n' := by
        simp [List.count_cons, hc]
      rw [hcnt]
      by_cases hcs : cs.count '\n' = 0
      · rw [hcs]
        simp
      · have hmem : '\n' ∈ cs := List.count_pos_iff.1 (by omega)
        have hex : ∃ a ∈ cs.reverse, (fun c => c != '\n') a = false := by
          exact ⟨'\n', List.mem_reverse.2 hmem, by simp⟩
        have hrun : ((c :: cs).reverse.takeWhile (fun c => c != '\n')).length =
            (cs.reverse.takeWhile (fun c => c != '\n')).length := by
          rw [List.reverse_cons, takeWhile_append_of_exists _ _ hex]
        rw [hrun]
        simp only [Prod.mk.injEq, List.length_cons]
        refine ⟨trivial, ?_⟩
        rw [if_neg hcs, if_neg hcs]
        omega

end EditorExtensions

/-- C9: for every content and every index within it, the editor position
has line equal to the number of newline characters strictly before the
index, and column equal to the number of characters between the position
just after the last such newline (the length of the newline-free trailing
run of the prefix; the whole prefix when there is no newline) and the
index. -/
theorem c9_editor_position (content : String) (index : Nat)
    (h : index ≤ content.data.length) :
    EditorExtensions.getEditorPositionFromIndex content index =
      ((content.data.take index).count '\n',
       ((content.data.take index).reverse.takeWhile (fun c => c != '\n')).length) := by
  have hlen : (content.data.take index).length = index := by
    rw [List.length_take]
    omega
  have hr_le :
      ((content.data.take index).reverse.takeWhile (fun c => c != '\n')).length ≤ index := by
    calc ((content.data.take index).reverse.takeWhile (fun c => c != '\n')).length
        ≤ (content.data.take index).reverse.length := length_takeWhile_le _ _
      _ = index := by rw [List.length_reverse, hlen]
  show ((EditorExtensions.nlScanAux (content.data.take index) 0 0 (-1)).1,
      ((content.data.drop
            ((EditorExtensions.nlScanAux (content.data.take index) 0 0 (-1)).2 + 1).toNat).take
          (index -
            ((EditorExtensions.nlScanAux (content.data.take index) 0 0 (-1)).2 + 1).toNat)).length)
      = _
  rw [EditorExtensions.nlScanAux_spec]
  by_cases hc : (content.data.take index).count '\n' = 0
  · have hall : ∀ a ∈ (content.data.take index).reverse, (fun c => c != '\n') a = true := by
      intro a ha
      have hmem : a ∈ content.data.take index := List.mem_reverse.1 ha
      have hne : a ≠ '\n' := fun heq => (List.count_eq_zero.1 hc) (heq ▸ hmem)
      simp [hne]
    have hrun :
        ((content.data.take index).reverse.takeWhile (fun c => c != '\n')).length = index := by
      rw [takeWhile_eq_self_of_all _ hall, List.length_reverse, hlen]
    simp only [hc, hrun]
    rw [if_pos trivial]
    norm_num [hlen]
  · set r := ((content.data.take index).reverse.takeWhile (fun c => c != '\n')).length with hr
    have hnl : '\n' ∈ content.data.take index := List.count_pos_iff.1 (by omega)
    have hrlt : r < index := by
      have := length_takeWhile_ne_nl_lt (List.mem_reverse.2 hnl)
      rw [List.length_reverse, hlen] at this
      exact this
    dsimp only
    rw [if_neg hc]
    simp only [Prod.mk.injEq]
    refine ⟨by omega, ?_⟩
    simp only [List.length_take, List.length_drop]
    omega

/-! ## Claim C8: anchored URL classification -/

theorem mem_of_getLast?_eq {α : Type} {l : List α} {a : α} (h : l.getLast? = some a) :
    a ∈ l := by
  induction l with
  | nil => simp at h
  | cons b bs ih =>
    cases bs with
    | nil =>
      simp only [List.getLast?_singleton, Option.some.injEq] at h
      simp [h]
    | cons d ds =>
      rw [List.getLast?_cons_cons] at h
      exact List.mem_cons_of_mem b (ih h)

theorem getLast?_append_ne {α : Type} {l m : List α} (hm : m ≠ []) :
    (l ++ m).getLast? = m.getLast? := by
  rw [List.getLast?_append]
  cases hx : m.getLast? with
  | none => exact absurd (List.getLast?_eq_none_iff.1 hx) hm
  | some a => rfl


/-- A whitespace character never ASCII-lowers to the letters starting a
URL alternative. -/
theorem isJsWs_not_hw {c : Char} (h : isJsWs c = true) :
    asciiLower c ≠ 'h' ∧ asciiLower c ≠ 'w' := by
  have hmem : c ∈ jsWsChars := by
    rw [isJsWs] at h
    simpa using h
  fin_cases hmem <;> exact ⟨by decide, by decide⟩

/-- If the scheme-bearing alternative accepts a string, its first
character lowers to `h`. -/
theorem matchHttpAlt_head {c : Char} {t : List Char} (h : matchHttpAlt (c :: t) = true) :
    asciiLower c = 'h' := by
  by_contra hne
  have hm : stripLitCI "http".data (c :: t) = none := by
    show stripLitCI ('h' :: ['t', 't', 'p']) (c :: t) = none
    simp only [stripLitCI]
    rw [if_neg (by rw [show asciiLower 'h' = 'h' from by decide]; exact hne)]
  simp only [matchHttpAlt] at h
  rw [hm] at h
  simp at h

/-- If the bare `www.` alternative accepts a string, its first character
lowers to `w`. -/
theorem matchWwwAlt_head {c : Char} {t : List Char} (h : matchWwwAlt (c :: t) = true) :
    asciiLower c = 'w' := by
  by_contra hne
  have hm : stripLitCI "www.".data (c :: t) = none := by
    show stripLitCI ('w' :: ['w', 'w', '.']) (c :: t) = none
    simp only [stripLitCI]
    rw [if_neg (by rw [show asciiLower 'w' = 'w' from by decide]; exact hne)]
  simp only [matchWwwAlt] at h
  rw [hm] at h
  simp at h

/-- Any string accepted by the URL regex starts with a character lowering
to `h` or `w`. -/
theorem matchUrl_head {l : List Char} (h : matchUrlL l = true) :
    ∃ c t, l = c :: t ∧ (asciiLower c = 'h' ∨ asciiLower c = 'w') := by
  cases l with
  | nil =>
    exfalso
    revert h
    decide
  | cons c t =>
    rw [matchUrlL, Bool.or_eq_true] at h
    rcases h with h1 | h2
    · exact ⟨c, t, rfl, Or.inl (matchHttpAlt_head h1)⟩
    · exact ⟨c, t, rfl, Or.inr (matchWwwAlt_head h2)⟩

/-- Stripping a literal only ever removes a prefix. -/
theorem stripLitCI_suffix :
    ∀ (pat l r : List Char), stripLitCI pat l = some r → ∃ p, l = p ++ r := by
  intro pat
  induction pat with
  | nil =>
    intro l r h
    simp only [stripLitCI, Option.some.injEq] at h
    exact ⟨[], by simp [h]⟩
  | cons p ps ih =>
    intro l r h
    cases l with
    | nil => simp [stripLitCI] at h
    | cons c cs =>
      simp only [stripLitCI] at h
      by_cases hac : asciiLower c = asciiLower p
      · rw [if_pos hac] at h
        obtain ⟨q, hq⟩ := ih cs r h
        exact ⟨c :: q, by simp [hq]⟩
      · rw [if_neg hac] at h
        cases h

/-- The optional `www.` group only ever removes a prefix. -/
theorem wwwOpt_suffix {l r : List Char} (h : wwwOpt l = some r) : ∃ p, l = p ++ r := by
  unfold wwwOpt at h
  cases hs : stripLitCI "www.".data l with
  | some r0 =>
    rw [hs] at h
    cases h
    exact stripLitCI_suffix _ _ _ hs
  | none =>
    rw [hs] at h
    by_cases hw : startsLitCI "www".data l = true
    · rw [if_pos hw] at h
      cases h
    · rw [if_neg hw] at h
      cases h
      exact ⟨[], rfl⟩

/-- A string accepted by the domain part splits as a label, a dot, and a
non-whitespace tail of length at least two. -/
theorem hostPart_shape {l : List Char} (h : hostPart l = true) :
    ∃ k rest, l.drop k = '.' :: rest ∧ tailOk rest = true := by
  unfold hostPart at h
  obtain ⟨k, hk, hpred⟩ := List.any_eq_true.1 h
  rw [Bool.and_eq_true] at hpred
  obtain ⟨hlab, hafter⟩ := hpred
  cases hd : l.drop k with
  | nil => rw [hd] at hafter; cases hafter
  | cons a rest =>
    rw [hd] at hafter
    rw [afterLabel, Bool.and_eq_true, decide_eq_true_eq] at hafter
    obtain ⟨hdot, htail⟩ := hafter
    exact ⟨k, rest, by rw [hd, hdot], htail⟩

/-- Any string accepted by the domain part ends with a non-whitespace
character. -/
theorem hostPart_last {l : List Char} (h : hostPart l = true) :
    ∃ a, l.getLast? = some a ∧ isJsWs a = false := by
  obtain ⟨k, rest, hdrop, htail⟩ := hostPart_shape h
  rw [tailOk, Bool.and_eq_true] at htail
  obtain ⟨hlen, hall⟩ := htail
  have hrest_ne : rest ≠ [] := by
    intro heq
    rw [heq] at hlen
    simp at hlen
  cases hlast : rest.getLast? with
  | none => exact absurd (List.getLast?_eq_none_iff.1 hlast) hrest_ne
  | some a =>
    have hmem : a ∈ rest := mem_of_getLast?_eq hlast
    have hnws : isJsWs a = false := by
      have hx := List.all_eq_true.1 hall a hmem
      simp only [Bool.not_eq_true'] at hx
      exact hx
    have hsplit : l = l.take k ++ '.' :: rest := by rw [← hdrop, List.take_append_drop]
    refine ⟨a, ?_, hnws⟩
    rw [hsplit, getLast?_append_ne (by simp),
        show ('.' :: rest : List Char) = ['.'] ++ rest from rfl,
        getLast?_append_ne hrest_ne, hlast]

/-- The scheme-bearing alternative ends in the domain part. -/
theorem matchHttpAlt_suffix {l : List Char} (h : matchHttpAlt l = true) :
    ∃ p r, l = p ++ r ∧ hostPart r = true := by
  simp only [matchHttpAlt] at h
  cases h0 : stripLitCI "http".data l with
  | none => simp only [h0] at h; simp at h
  | some r0 =>
    simp only [h0] at h
    obtain ⟨p0, hp0⟩ := stripLitCI_suffix _ _ _ h0
    cases h1 : stripLitCI ['s', ':', '/', '/'] r0 with
    | some r2 =>
      simp only [h1] at h
      obtain ⟨p1, hp1⟩ := stripLitCI_suffix _ _ _ h1
      cases h2 : wwwOpt r2 with
      | none => simp only [h2] at h; simp at h
      | some r3 =>
        simp only [h2] at h
        obtain ⟨p2, hp2⟩ := wwwOpt_suffix h2
        exact ⟨p0 ++ (p1 ++ p2), r3, by rw [hp0, hp1, hp2]; simp, h⟩
    | none =>
      simp only [h1] at h
      cases h1b : stripLitCI [':', '/', '/'] r0 with
      | none => simp only [h1b] at h; simp at h
      | some r2 =>
        simp only [h1b] at h
        obtain ⟨p1, hp1⟩ := stripLitCI_suffix _ _ _ h1b
        cases h2 : wwwOpt r2 with
        | none => simp only [h2] at h; simp at h
        | some r3 =>
          simp only [h2] at h
          obtain ⟨p2, hp2⟩ := wwwOpt_suffix h2
          exact ⟨p0 ++ (p1 ++ p2), r3, by rw [hp0, hp1, hp2]; simp, h⟩

/-- The bare `www.` alternative ends in the domain part. -/
theorem matchWwwAlt_suffix {l : List Char} (h : matchWwwAlt l = true) :
    ∃ p r, l = p ++ r ∧ hostPart r = true := by
  simp only [matchWwwAlt] at h
  cases h0 : stripLitCI "www.".data l with
  | none => simp only [h0] at h; simp at h
  | some r =>
    simp only [h0] at h
    obtain ⟨p, hp⟩ := stripLitCI_suffix _ _ _ h0
    exact ⟨p, r, hp, h⟩

/-- Any string accepted by the URL regex ends with a non-whitespace
character. -/
theorem matchUrl_last {l : List Char} (h : matchUrlL l = true) :
    ∃ a, l.getLast? = some a ∧ isJsWs a = false := by
  rw [matchUrlL, Bool.or_eq_true] at h
  have key : ∀ p r : List Char, l = p ++ r → hostPart r = true →
      ∃ a, l.getLast? = some a ∧ isJsWs a = false := by
    intro p r hsplit hr
    obtain ⟨a, ha, hnws⟩ := hostPart_last hr
    have hr_ne : r ≠ [] := by
      intro heq
      rw [heq] at ha
      simp at ha
    exact ⟨a, by rw [hsplit, getLast?_append_ne hr_ne, ha], hnws⟩
  rcases h with h1 | h2
  · obtain ⟨p, r, hsplit, hr⟩ := matchHttpAlt_suffix h1
    exact key p r hsplit hr
  · obtain ⟨p, r, hsplit, hr⟩ := matchWwwAlt_suffix h2
    exact key p r hsplit hr

/-- C8: `isUrl` accepts every string the anchored URL grammar accepts,
and rejects the string obtained by adding any leading or trailing
character the grammar excludes (a whitespace character): partial
containment does not qualify. -/
theorem c8_isurl_anchored (s : String) (c : Char)
    (hs : urlRegexTest s = true) (hc : isJsWs c = true) :
    CheckIf.isUrl s = true ∧
    CheckIf.isUrl ⟨c :: s.data⟩ = false ∧
    CheckIf.isUrl ⟨s.data ++ [c]⟩ = false := by
  refine ⟨hs, ?_, ?_⟩
  · by_contra hx
    have hx2 : matchUrlL (c :: s.data) = true := by
      cases hb : CheckIf.isUrl ⟨c :: s.data⟩ with
      | false => exact absurd hb hx
      | true => exact hb
    obtain ⟨c2, t, heq, hhw⟩ := matchUrl_head hx2
    obtain ⟨rfl, rfl⟩ : c = c2 ∧ s.data = t := by
      rw [List.cons.injEq] at heq
      exact heq
    rcases isJsWs_not_hw hc with ⟨hh, hw⟩
    rcases hhw with h | h
    · exact hh h
    · exact hw h
  · by_contra hx
    have hx2 : matchUrlL (s.data ++ [c]) = true := by
      cases hb : CheckIf.isUrl ⟨s.data ++ [c]⟩ with
      | false => exact absurd hb hx
      | true => exact hb
    obtain ⟨a, hlast, hnws⟩ := matchUrl_last hx2
    rw [List.getLast?_concat, Option.some.injEq] at hlast
    rw [← hlast, hc] at hnws
    cases hnws

/-- C8 witness: `https://example.com` is accepted, and adding a leading
or trailing space is rejected. -/
theorem c8_isurl_anchored_witness :
    urlRegexTest "https://example.com" = true ∧
    isJsWs ' ' = true ∧
    CheckIf.isUrl "https://example.com" = true ∧
    CheckIf.isUrl ⟨' ' :: ("https://example.com" : String).data⟩ = false ∧
    CheckIf.isUrl ⟨("https://example.com" : String).data ++ [' ']⟩ = false := by
  refine ⟨by decide, by decide, ?_⟩
  have hmain := c8_isurl_anchored "https://example.com" ' ' (by decide) (by decide)
  exact ⟨hmain.1, hmain.2.1, hmain.2.2⟩

/-! ## Claim C1: serialize/parse round trip -/

/-- No newline variant occurs in the character list (the claim's "no
control characters beyond the normalized set" for line-structured
values). -/
def noNl (l : List Char) : Bool := l.all (fun c => !(c = '\n' || c = '\r'))

/-- A value serialized as a plain scalar survives the round trip when it
is non-empty, newline-free, does not open with a double quote, and is not
a YAML-special scalar: an unquoted internal-link reference `[[…]]` or
another flow collection, number-like or word-literal form is handed back
by the mapping parser as a non-string (URLs and hostnames are never
special, internal links always are). -/
def plainOkB (x : String) : Bool :=
  (x != "") && noNl x.data && (x.data.head? != some '"') &&
    !(CodeBlockProcessor.yamlSpecialPlain x.data)

/-- `plainOkB` lifted to an optional field. -/
def optPlainOkB : Option String → Bool
  | none => true
  | some x => plainOkB x

/-- A quoted-scalar pre-image is acceptable when non-empty and
newline-free. -/
def quotedOkB (x : String) : Bool := (x != "") && noNl x.data

/-- `quotedOkB` lifted to an optional field. -/
def optQuotedOkB : Option String → Bool
  | none => true
  | some x => quotedOkB x

theorem escList_eq_nil_iff (l : List Char) : escList l = [] ↔ l = [] := by
  cases l with
  | nil => simp [escList]
  | cons c cs =>
    simp only [escList, escChar]
    constructor
    · intro h
      by_cases hb : c = '\\'
      · rw [if_pos hb] at h
        cases h
      · by_cases hq : c = '"'
        · rw [if_neg hb, if_pos hq] at h
          cases h
        · rw [if_neg hb, if_neg hq] at h
          cases h
    · intro h
      cases h

theorem escapeStr_eq_empty_iff (s : String) : escapeStr s = "" ↔ s = "" := by
  unfold escapeStr
  rw [escQuote_escBackslash]
  constructor
  · intro h
    have : escList s.data = [] := congrArg String.data h
    have hd : s.data = [] := (escList_eq_nil_iff _).1 this
    cases s
    simp at hd
    rw [hd]
  · intro h
    rw [h]
    rfl

theorem noNl_escList {l : List Char} (h : noNl l = true) : noNl (escList l) = true := by
  induction l with
  | nil => simp [escList, noNl]
  | cons c cs ih =>
    rw [noNl, List.all_eq_true] at h ⊢
    intro x hx
    rw [escList, List.mem_append] at hx
    rcases hx with hx | hx
    · have hc := h c (by simp)
      have hcases : x = '\\' ∨ x = '"' ∨ x = c := by
        unfold escChar at hx
        by_cases hb : c = '\\'
        · rw [if_pos hb] at hx
          simp at hx
          exact Or.inl hx
        · by_cases hq : c = '"'
          · rw [if_neg hb, if_pos hq] at hx
            simp at hx
            rcases hx with rfl | rfl
            · exact Or.inl rfl
            · exact Or.inr (Or.inl rfl)
          · rw [if_neg hb, if_neg hq] at hx
            simp at hx
            exact Or.inr (Or.inr hx)
      rcases hcases with rfl | rfl | rfl
      · decide
      · decide
      · exact hc
    · have hall : noNl cs = true := by
        rw [noNl, List.all_eq_true]
        intro y hy
        exact h y (by simp [hy])
      exact (List.all_eq_true.1 (ih hall)) x hx

/-- The fence stripping of the markdown host recovers exactly the joined
body lines of a serialized block. -/
theorem innerOfBlock_genCodeBlock (m : LinkMetadata) :
    innerOfBlock (CodeBlockGenerator.genCodeBlock m) =
      CodeBlockGenerator.joinLines (CodeBlockGenerator.cardBodyLines m) := by
  rw [CodeBlockGenerator.genCodeBlock_decomp]
  unfold innerOfBlock
  apply String.ext
  have hdata :
      ("\n```cardlink\n" ++ CodeBlockGenerator.joinLines (CodeBlockGenerator.cardBodyLines m)
          ++ "\n```\n").data =
        ("\n```cardlink\n" : String).data ++
          ((CodeBlockGenerator.joinLines (CodeBlockGenerator.cardBodyLines m)).data ++
            ("\n```\n" : String).data) := by
    rw [String.data_append, String.data_append, List.append_assoc]
  rw [hdata]
  rw [show (13 : Nat) = ("\n```cardlink\n" : String).data.length from rfl, List.drop_left]
  have hlen :
      ((CodeBlockGenerator.joinLines (CodeBlockGenerator.cardBodyLines m)).data ++
          ("\n```\n" : String).data).length - 5 =
        (CodeBlockGenerator.joinLines (CodeBlockGenerator.cardBodyLines m)).data.length := by
    rw [List.length_append]
    simp
  rw [hlen, List.take_left]

namespace CodeBlockProcessor

/-- The string-level `join("\n")` at the character level. -/
theorem joinLines_data (ls : List String) :
    (CodeBlockGenerator.joinLines ls).data = joinNl (ls.map String.data) := by
  induction ls with
  | nil => rfl
  | cons a rest ih =>
    cases rest with
    | nil => rfl
    | cons b bs =>
      rw [CodeBlockGenerator.joinLines, String.data_append, String.data_append, ih]
      rw [show ("\n" : String).data = ['\n'] from rfl]
      simp [joinNl]
      exact fun h => List.noConfusion h

/-- Scanning the escaped image of `t` consumes it entirely, restores `t`,
and stops at the closing quote. -/
theorem dqScan_escList (t r : List Char) :
    dqScan (escList t ++ '"' :: r) = some (t, r) := by
  induction t with
  | nil => rfl
  | cons c cs ih =>
    by_cases hb : c = '\\'
    · subst hb
      show dqScan ('\\' :: '\\' :: (escList cs ++ '"' :: r)) = _
      rw [show dqScan ('\\' :: '\\' :: (escList cs ++ '"' :: r)) =
            (dqScan (escList cs ++ '"' :: r)).map (fun p => ('\\' :: p.1, p.2)) from rfl, ih]
      rfl
    · by_cases hq : c = '"'
      · subst hq
        show dqScan ('\\' :: '"' :: (escList cs ++ '"' :: r)) = _
        rw [show dqScan ('\\' :: '"' :: (escList cs ++ '"' :: r)) =
              (dqScan (escList cs ++ '"' :: r)).map (fun p => ('"' :: p.1, p.2)) from rfl, ih]
        rfl
      · show dqScan ((escChar c ++ escList cs) ++ '"' :: r) = some (c :: cs, r)
        rw [List.append_assoc, show escChar c = [c] from by simp [escChar, hb, hq],
          List.singleton_append]
        have hstep : dqScan (c :: (escList cs ++ '"' :: r)) =
            (dqScan (escList cs ++ '"' :: r)).map (fun p => (c :: p.1, p.2)) := by
          simp [dqScan, hb, hq]
        rw [hstep, ih]
        rfl

/-- Parsing a well-formed plain-scalar mapping line whose value is
string-shaped (not YAML-special). -/
theorem lineParse_plain (key v : List Char) (hk : ∀ a ∈ key, a ≠ ':') (hv : v ≠ [])
    (hq : v.head? ≠ some '"') (hs : yamlSpecialPlain v = false) :
    lineParse (key ++ ':' :: ' ' :: v) = .ok (some (trimSp key, .strV v)) := by
  have hblank : (key ++ ':' :: ' ' :: v).all (fun c => c = ' ' || c = '\t') = false := by
    rw [List.all_append]
    simp
  have hk1 : (key ++ ':' :: ' ' :: v).takeWhile (fun c => c ≠ ':') = key := by
    rw [takeWhile_append_of_all _ _ (fun a ha => by simpa using hk a ha)]
    simp [List.takeWhile_cons]
  unfold lineParse
  rw [hblank]
  simp only [Bool.false_eq_true, if_false, hk1, List.drop_left]
  simp [hv, hq, hs]

/-- Parsing a well-formed double-quoted mapping line whose content is the
escaped image of `t`. -/
theorem lineParse_quoted (key t : List Char) (hk : ∀ a ∈ key, a ≠ ':') :
    lineParse (key ++ ':' :: ' ' :: ('"' :: (escList t ++ ['"']))) =
      .ok (some (trimSp key, .strV t)) := by
  have hblank :
      (key ++ ':' :: ' ' :: ('"' :: (escList t ++ ['"']))).all
        (fun c => c = ' ' || c = '\t') = false := by
    rw [List.all_append]
    simp
  have hk1 :
      (key ++ ':' :: ' ' :: ('"' :: (escList t ++ ['"']))).takeWhile (fun c => c ≠ ':')
        = key := by
    rw [takeWhile_append_of_all _ _ (fun a ha => by simpa using hk a ha)]
    simp [List.takeWhile_cons]
  unfold lineParse
  rw [hblank]
  simp only [Bool.false_eq_true, if_false, hk1, List.drop_left]
  have hscan : dqScan (escList t ++ ['"']) = some (t, []) := dqScan_escList t []
  simp [hscan]

theorem splitOnNl_single {l : List Char} (h : '\n' ∉ l) : splitOnNl l = [l] := by
  induction l with
  | nil => rfl
  | cons c cs ih =>
    have hc : c ≠ '\n' := fun e => h (e ▸ List.mem_cons_self c cs)
    have hcs : '\n' ∉ cs := fun e => h (List.mem_cons_of_mem c e)
    have hstep : splitOnNl (c :: cs) =
        match splitOnNl cs with
        | [] => [[c]]
        | l :: ls => (c :: l) :: ls := by
      simp [splitOnNl, hc]
    rw [hstep, ih hcs]

theorem splitOnNl_append {l : List Char} (rest : List Char) (h : '\n' ∉ l) :
    splitOnNl (l ++ '\n' :: rest) = l :: splitOnNl rest := by
  induction l with
  | nil => rfl
  | cons c cs ih =>
    have hc : c ≠ '\n' := fun e => h (e ▸ List.mem_cons_self c cs)
    have hcs : '\n' ∉ cs := fun e => h (List.mem_cons_of_mem c e)
    have hstep : splitOnNl (c :: (cs ++ '\n' :: rest)) =
        match splitOnNl (cs ++ '\n' :: rest) with
        | [] => [[c]]
        | l :: ls => (c :: l) :: ls := by
      simp [splitOnNl, hc]
    rw [List.cons_append, hstep, ih hcs]

theorem splitOnNl_joinNl (ls : List (List Char)) (h : ∀ l ∈ ls, '\n' ∉ l) (hne : ls ≠ []) :
    splitOnNl (joinNl ls) = ls := by
  induction ls with
  | nil => exact absurd rfl hne
  | cons l rest ih =>
    cases rest with
    | nil => exact splitOnNl_single (h l (by simp))
    | cons l2 ls2 =>
      rw [show joinNl (l :: l2 :: ls2) = l ++ '\n' :: joinNl (l2 :: ls2) from rfl]
      rw [splitOnNl_append _ (h l (by simp))]
      rw [ih (fun x hx => h x (by simp [hx])) (by simp)]

theorem splitLinesJS_single {l : List Char} (h : noNl l = true) : splitLinesJS l = [l] := by
  induction l with
  | nil => rfl
  | cons c cs ih =>
    have hc := List.all_eq_true.1 h c (by simp)
    have hcn : c ≠ '\n' := by
      intro e
      rw [e] at hc
      simp at hc
    have hcr : c ≠ '\r' := by
      intro e
      rw [e] at hc
      simp at hc
    have hcs : noNl cs = true := by
      rw [noNl, List.all_eq_true]
      intro x hx
      exact List.all_eq_true.1 h x (by simp [hx])
    have hstep : splitLinesJS (c :: cs) =
        match splitLinesJS cs with
        | [] => [[c]]
        | l :: ls => (c :: l) :: ls := by
      simp [splitLinesJS, hcn, hcr]
    rw [hstep, ih hcs]

theorem splitLinesJS_append {l : List Char} (rest : List Char) (h : noNl l = true) :
    splitLinesJS (l ++ '\n' :: rest) = l :: splitLinesJS rest := by
  induction l with
  | nil => rfl
  | cons c cs ih =>
    have hc := List.all_eq_true.1 h c (by simp)
    have hcn : c ≠ '\n' := by
      intro e
      rw [e] at hc
      simp at hc
    have hcr : c ≠ '\r' := by
      intro e
      rw [e] at hc
      simp at hc
    have hcs : noNl cs = true := by
      rw [noNl, List.all_eq_true]
      intro x hx
      exact List.all_eq_true.1 h x (by simp [hx])
    have hstep : splitLinesJS (c :: (cs ++ '\n' :: rest)) =
        match splitLinesJS (cs ++ '\n' :: rest) with
        | [] => [[c]]
        | l :: ls => (c :: l) :: ls := by
      simp [splitLinesJS, hcn, hcr]
    rw [List.cons_append, hstep, ih hcs]

theorem splitLinesJS_joinNl (ls : List (List Char)) (h : ∀ l ∈ ls, noNl l = true)
    (hne : ls ≠ []) : splitLinesJS (joinNl ls) = ls := by
  induction ls with
  | nil => exact absurd rfl hne
  | cons l rest ih =>
    cases rest with
    | nil => exact splitLinesJS_single (h l (by simp))
    | cons l2 ls2 =>
      rw [show joinNl (l :: l2 :: ls2) = l ++ '\n' :: joinNl (l2 :: ls2) from rfl]
      rw [splitLinesJS_append _ (h l (by simp))]
      rw [ih (fun x hx => h x (by simp [hx])) (by simp)]

theorem preprocessLines_id (ls : List (List Char)) (h : ∀ l ∈ ls, leadingTabs l = 0)
    (ind : Int) : preprocessLines ls ind = (ls, ind) := by
  rw [preprocessLines_spec]
  have h1 : ls.map stripLeadingTabs = ls := by
    induction ls with
    | nil => rfl
    | cons l rest ih =>
      rw [List.map_cons, ih (fun x hx => h x (by simp [hx]))]
      rw [show stripLeadingTabs l = l from by simp [stripLeadingTabs, h l (by simp)]]
  have h2 : ls.find? (fun l => leadingTabs l != 0) = none := by
    rw [List.find?_eq_none]
    intro x hx
    simp [h x hx]
  rw [h1, h2]
  simp

theorem collectLines_append {xs ys : List (List Char)}
    {as bs : List (List Char × YamlFieldVal)}
    (hx : collectLines xs = .ok as) (hy : collectLines ys = .ok bs) :
    collectLines (xs ++ ys) = .ok (as ++ bs) := by
  induction xs generalizing as with
  | nil =>
    have has : as = [] := by
      have h2 : (Except.ok [] : Except Unit (List (List Char × YamlFieldVal))) = .ok as := hx
      cases h2
      rfl
    subst has
    simpa using hy
  | cons l xs ih =>
    cases hl : lineParse l with
    | error e => simp [collectLines, hl] at hx
    | ok kvO =>
      cases kvO with
      | none =>
        rw [collectLines, hl] at hx
        rw [List.cons_append, collectLines, hl]
        exact ih hx
      | some kv =>
        rw [collectLines, hl] at hx
        cases hxs : collectLines xs with
        | error e => rw [hxs] at hx; cases hx
        | ok acc =>
          rw [hxs] at hx
          have has : as = kv :: acc := by cases hx; rfl
          subst has
          rw [List.cons_append, collectLines, hl, ih hxs]
          rfl

/-- Storing the parsed pairs into the `Partial<LinkMetadata>` view, one
lemma per recognized key, for string values. -/
theorem applyKV_url (d : YamlDoc) (s : List Char) :
    applyKV d "url".data (.strV s) = some { d with url := some ⟨s⟩ } := by
  unfold applyKV
  rw [if_pos rfl]
  rfl

theorem applyKV_title (d : YamlDoc) (s : List Char) :
    applyKV d "title".data (.strV s) = some { d with title := some ⟨s⟩ } := by
  unfold applyKV
  rw [if_neg (by decide), if_pos rfl]
  rfl

theorem applyKV_description (d : YamlDoc) (s : List Char) :
    applyKV d "description".data (.strV s) = some { d with description := some ⟨s⟩ } := by
  unfold applyKV
  rw [if_neg (by decide), if_neg (by decide), if_pos rfl]
  rfl

theorem applyKV_host (d : YamlDoc) (s : List Char) :
    applyKV d "host".data (.strV s) = some { d with host := some ⟨s⟩ } := by
  unfold applyKV
  rw [if_neg (by decide), if_neg (by decide), if_neg (by decide), if_pos rfl]
  rfl

theorem applyKV_favicon (d : YamlDoc) (s : List Char) :
    applyKV d "favicon".data (.strV s) = some { d with favicon := some ⟨s⟩ } := by
  unfold applyKV
  rw [if_neg (by decide), if_neg (by decide), if_neg (by decide), if_neg (by decide),
    if_pos rfl]
  rfl

theorem applyKV_image (d : YamlDoc) (s : List Char) :
    applyKV d "image".data (.strV s) = some { d with image := some ⟨s⟩ } := by
  unfold applyKV
  rw [if_neg (by decide), if_neg (by decide), if_neg (by decide), if_neg (by decide),
    if_neg (by decide), if_pos rfl]
  rfl

/-- Unfolding one successful step of the left-to-right fold into the
view. -/
theorem applyAll_cons {doc d2 : YamlDoc} {k : List Char} {v : YamlFieldVal}
    (ps : List (List Char × YamlFieldVal)) (h : applyKV doc k v = some d2) :
    applyAll doc ((k, v) :: ps) = applyAll d2 ps := by
  show (match applyKV doc k v with
        | none => none
        | some doc2 => applyAll doc2 ps) = applyAll d2 ps
  rw [h]

/-- The fold into the view over an appended pair list, when the first
part succeeds. -/
theorem applyAll_append {doc d2 : YamlDoc} {xs ys : List (List Char × YamlFieldVal)}
    (h : applyAll doc xs = some d2) :
    applyAll doc (xs ++ ys) = applyAll d2 ys := by
  induction xs generalizing doc with
  | nil =>
    have hd : doc = d2 := by
      have h2 : (some doc : Option YamlDoc) = some d2 := h
      cases h2
      rfl
    subst hd
    rfl
  | cons p ps ih =>
    cases hk : applyKV doc p.1 p.2 with
    | none =>
      have h2 : (none : Option YamlDoc) = some d2 := by
        have hstep : applyAll doc (p :: ps) =
            match applyKV doc p.1 p.2 with
            | none => none
            | some doc2 => applyAll doc2 ps := rfl
        rw [hstep, hk] at h
        exact h
      cases h2
    | some dc2 =>
      have hstep : ∀ l : List (List Char × YamlFieldVal), applyAll doc (p :: l) =
          match applyKV doc p.1 p.2 with
          | none => none
          | some doc2 => applyAll doc2 l := fun l => rfl
      rw [hstep ps, hk] at h
      rw [List.cons_append, hstep (ps ++ ys), hk]
      exact ih h

/-- Character-level views of the serialized field lines. -/
theorem urlLine_data (u : String) :
    ("url: " ++ u).data = "url".data ++ ':' :: ' ' :: u.data := by
  rw [String.data_append, show ("url: " : String).data = "url".data ++ [':', ' '] from by decide,
    List.append_assoc]
  rfl

theorem hostLine_data (x : String) :
    ("host: " ++ x).data = "host".data ++ ':' :: ' ' :: x.data := by
  rw [String.data_append, show ("host: " : String).data = "host".data ++ [':', ' '] from by decide,
    List.append_assoc]
  rfl

theorem faviconLine_data (x : String) :
    ("favicon: " ++ x).data = "favicon".data ++ ':' :: ' ' :: x.data := by
  rw [String.data_append,
    show ("favicon: " : String).data = "favicon".data ++ [':', ' '] from by decide,
    List.append_assoc]
  rfl

theorem imageLine_data (x : String) :
    ("image: " ++ x).data = "image".data ++ ':' :: ' ' :: x.data := by
  rw [String.data_append, show ("image: " : String).data = "image".data ++ [':', ' '] from by decide,
    List.append_assoc]
  rfl

theorem escapeStr_data (t : String) : (escapeStr t).data = escList t.data := by
  unfold escapeStr
  exact escQuote_escBackslash t.data

theorem titleLine_data (t : String) :
    ("title: \"" ++ escapeStr t ++ "\"").data =
      "title".data ++ ':' :: ' ' :: ('"' :: (escList t.data ++ ['"'])) := by
  rw [String.data_append, String.data_append, escapeStr_data]
  rw [show ("title: \"" : String).data = "title".data ++ [':', ' ', '"'] from by decide]
  rw [show ("\"" : String).data = ['"'] from rfl]
  simp [List.append_assoc]

theorem descLine_data (t : String) :
    ("description: \"" ++ escapeStr t ++ "\"").data =
      "description".data ++ ':' :: ' ' :: ('"' :: (escList t.data ++ ['"'])) := by
  rw [String.data_append, String.data_append, escapeStr_data]
  rw [show ("description: \"" : String).data = "description".data ++ [':', ' ', '"'] from by decide]
  rw [show ("\"" : String).data = ['"'] from rfl]
  simp [List.append_assoc]

theorem plainOkB_spec {x : String} (h : plainOkB x = true) :
    x ≠ "" ∧ noNl x.data = true ∧ x.data.head? ≠ some '"' ∧
      yamlSpecialPlain x.data = false := by
  rw [plainOkB, Bool.and_eq_true, Bool.and_eq_true, Bool.and_eq_true] at h
  obtain ⟨⟨⟨h1, h2⟩, h3⟩, h4⟩ := h
  refine ⟨by simpa using h1, h2, by simpa using h3, by simpa using h4⟩

theorem quotedOkB_spec {x : String} (h : quotedOkB x = true) :
    x ≠ "" ∧ noNl x.data = true := by
  rw [quotedOkB, Bool.and_eq_true] at h
  obtain ⟨h1, h2⟩ := h
  exact ⟨by simpa using h1, h2⟩

theorem noNl_keyline {key v : List Char} (hkey : noNl key = true) (hv : noNl v = true) :
    noNl (key ++ ':' :: ' ' :: v) = true := by
  simp only [noNl] at hkey hv ⊢
  rw [List.all_append, hkey, List.all_cons, List.all_cons, hv]
  decide

theorem noNl_quotedline {key t : List Char} (hkey : noNl key = true) (ht : noNl t = true) :
    noNl (key ++ ':' :: ' ' :: ('"' :: (escList t ++ ['"']))) = true := by
  have hesc := noNl_escList ht
  simp only [noNl] at hkey hesc ⊢
  rw [List.all_append, hkey]
  simp only [List.all_cons, List.all_append, hesc]
  simp

theorem keyline_data (keyS v : String) :
    (keyS ++ ": " ++ v).data = keyS.data ++ ':' :: ' ' :: v.data := by
  rw [String.data_append, String.data_append,
    show (": " : String).data = [':', ' '] from rfl, List.append_assoc]
  rfl

theorem quotedline_data (keyS dt : String) :
    (keyS ++ ": \"" ++ escapeStr dt ++ "\"").data =
      keyS.data ++ ':' :: ' ' :: ('"' :: (escList dt.data ++ ['"'])) := by
  rw [String.data_append, String.data_append, String.data_append, escapeStr_data]
  rw [show (": \"" : String).data = [':', ' ', '"'] from rfl,
    show ("\"" : String).data = ['"'] from rfl]
  simp [List.append_assoc]

/-- Collecting an optional plain-scalar segment of the body. -/
theorem optPlain_seg (keyS : String) (x : Option String)
    (hx : optPlainOkB x = true) (hkc : ∀ a ∈ keyS.data, a ≠ ':')
    (htr : trimSp keyS.data = keyS.data) (hknl : noNl keyS.data = true)
    (hkey0 : ∀ v : List Char, leadingTabs (keyS.data ++ ':' :: ' ' :: v) = 0) :
    collectLines ((CodeBlockGenerator.optLinePlain keyS x).map String.data)
        = .ok ((x.map (fun v => (keyS.data, YamlFieldVal.strV v.data))).toList) ∧
      (∀ l ∈ (CodeBlockGenerator.optLinePlain keyS x).map String.data,
        noNl l = true ∧ leadingTabs l = 0) := by
  cases x with
  | none => exact ⟨rfl, by simp [CodeBlockGenerator.optLinePlain]⟩
  | some v =>
    obtain ⟨hne, hnl, hq, hsp⟩ := plainOkB_spec (by simpa [optPlainOkB] using hx)
    have hvd : v.data ≠ [] := by
      intro e
      apply hne
      cases v
      simp at e
      rw [e]
    have hline : CodeBlockGenerator.optLinePlain keyS (some v) = [keyS ++ ": " ++ v] := by
      simp [CodeBlockGenerator.optLinePlain, hne]
    rw [hline]
    rw [List.map_cons, List.map_nil, keyline_data]
    have hlp := lineParse_plain keyS.data v.data hkc hvd hq hsp
    rw [htr] at hlp
    constructor
    · rw [collectLines, hlp, collectLines]
      rfl
    · intro l hl
      simp only [List.mem_singleton] at hl
      subst hl
      exact ⟨noNl_keyline hknl hnl, hkey0 v.data⟩

/-- Collecting the optional description segment of the body. -/
theorem optQuoted_seg (x : Option String) (hx : optQuotedOkB x = true) :
    collectLines
        ((CodeBlockGenerator.optLineQuoted "description" (x.map escapeStr)).map String.data)
        = .ok ((x.map (fun v => ("description".data, YamlFieldVal.strV v.data))).toList) ∧
      (∀ l ∈ (CodeBlockGenerator.optLineQuoted "description" (x.map escapeStr)).map String.data,
        noNl l = true ∧ leadingTabs l = 0) := by
  cases x with
  | none => exact ⟨rfl, by simp [CodeBlockGenerator.optLineQuoted]⟩
  | some v =>
    obtain ⟨hne, hnl⟩ := quotedOkB_spec (by simpa [optQuotedOkB] using hx)
    have hesc_ne : escapeStr v ≠ "" := fun e => hne ((escapeStr_eq_empty_iff v).1 e)
    have hline : CodeBlockGenerator.optLineQuoted "description" ((some v).map escapeStr) =
        ["description" ++ ": \"" ++ escapeStr v ++ "\""] := by
      simp [CodeBlockGenerator.optLineQuoted, hesc_ne]
    rw [hline]
    rw [List.map_cons, List.map_nil, quotedline_data]
    have hlp := lineParse_quoted "description".data v.data (by decide)
    rw [show trimSp "description".data = "description".data from by decide] at hlp
    constructor
    · rw [collectLines, hlp, collectLines]
      rfl
    · intro l hl
      simp only [List.mem_singleton] at hl
      subst hl
      exact ⟨noNl_quotedline (by decide) hnl, by rfl⟩

theorem data_ne_nil {x : String} (h : x ≠ "") : x.data ≠ [] :=
  fun e => h (String.ext (e.trans rfl))

theorem not_mem_nl_of_noNl {l : List Char} (h : noNl l = true) : '\n' ∉ l := by
  intro hm
  have hx := List.all_eq_true.1 h _ hm
  simp at hx

end CodeBlockProcessor

/-- C1 (amended): for a record whose title and description store the
escaped images of newline-free texts and whose plain-scalar fields are
non-empty, newline-free, do not open with a quote and are string-shaped
(not YAML-special: an unquoted internal-link reference `[[…]]` or another
flow collection, number-like or word-literal scalar is handed back by the
mapping parser as a non-string and falls outside the round trip), parsing
the fenced region of the serialized block restores the url, host, favicon
and image values verbatim and restores the pre-escape title and
description texts: the values round-trip through escape/unescape without
loss, and strict equality for title/description holds exactly when they
contain no character needing escaping. -/
theorem c1_escape_roundtrip (u t : String) (d h f i : Option String) (ind : Int)
    (hu : plainOkB u = true) (ht : quotedOkB t = true)
    (hd : optQuotedOkB d = true) (hh : optPlainOkB h = true)
    (hf : optPlainOkB f = true) (hi : optPlainOkB i = true) :
    CodeBlockProcessor.parseLinkMetadataFromYaml
        (innerOfBlock (CodeBlockGenerator.genCodeBlock
          { url := u, title := escapeStr t, description := d.map escapeStr,
            host := h, favicon := f, image := i, indent := ind })) =
      .ok { url := u, title := t, description := d, host := h, favicon := f,
            image := i, indent := -1 } := by
  obtain ⟨hu_ne, hu_nl, hu_q, hu_sp⟩ := CodeBlockProcessor.plainOkB_spec hu
  obtain ⟨ht_ne, ht_nl⟩ := CodeBlockProcessor.quotedOkB_spec ht
  rw [innerOfBlock_genCodeBlock]
  have hud : u.data ≠ [] := CodeBlockProcessor.data_ne_nil hu_ne
  have hline_url :=
    CodeBlockProcessor.lineParse_plain "url".data u.data (by decide) hud hu_q hu_sp
  rw [show CodeBlockProcessor.trimSp "url".data = "url".data from by decide] at hline_url
  have hline_title := CodeBlockProcessor.lineParse_quoted "title".data t.data (by decide)
  rw [show CodeBlockProcessor.trimSp "title".data = "title".data from by decide] at hline_title
  have hcoll_mand : CodeBlockProcessor.collectLines
      [("url: " ++ u).data, ("title: \"" ++ escapeStr t ++ "\"").data] =
      .ok [("url".data, CodeBlockProcessor.YamlFieldVal.strV u.data),
           ("title".data, CodeBlockProcessor.YamlFieldVal.strV t.data)] := by
    rw [CodeBlockProcessor.urlLine_data, CodeBlockProcessor.titleLine_data]
    rw [CodeBlockProcessor.collectLines, hline_url]
    rw [CodeBlockProcessor.collectLines, hline_title]
    rfl
  have hdseg := CodeBlockProcessor.optQuoted_seg d hd
  have hhseg := CodeBlockProcessor.optPlain_seg "host" h hh (by decide) (by decide)
    (by decide) (fun v => rfl)
  have hfseg := CodeBlockProcessor.optPlain_seg "favicon" f hf (by decide) (by decide)
    (by decide) (fun v => rfl)
  have hiseg := CodeBlockProcessor.optPlain_seg "image" i hi (by decide) (by decide)
    (by decide) (fun v => rfl)
  have hmap : (CodeBlockGenerator.cardBodyLines
        { url := u, title := escapeStr t, description := d.map escapeStr,
          host := h, favicon := f, image := i, indent := ind }).map String.data =
      [("url: " ++ u).data, ("title: \"" ++ escapeStr t ++ "\"").data]
        ++ (CodeBlockGenerator.optLineQuoted "description" (d.map escapeStr)).map String.data
        ++ (CodeBlockGenerator.optLinePlain "host" h).map String.data
        ++ (CodeBlockGenerator.optLinePlain "favicon" f).map String.data
        ++ (CodeBlockGenerator.optLinePlain "image" i).map String.data := by
    simp [CodeBlockGenerator.cardBodyLines, List.map_append]
  have hcoll : CodeBlockProcessor.collectLines
      ((CodeBlockGenerator.cardBodyLines
        { url := u, title := escapeStr t, description := d.map escapeStr,
          host := h, favicon := f, image := i, indent := ind }).map String.data) =
      .ok ([("url".data, CodeBlockProcessor.YamlFieldVal.strV u.data),
            ("title".data, CodeBlockProcessor.YamlFieldVal.strV t.data)]
        ++ (d.map (fun v => ("description".data, CodeBlockProcessor.YamlFieldVal.strV v.data))).toList
        ++ (h.map (fun v => ("host".data, CodeBlockProcessor.YamlFieldVal.strV v.data))).toList
        ++ (f.map (fun v => ("favicon".data, CodeBlockProcessor.YamlFieldVal.strV v.data))).toList
        ++ (i.map (fun v => ("image".data, CodeBlockProcessor.YamlFieldVal.strV v.data))).toList) := by
    rw [hmap]
    exact CodeBlockProcessor.collectLines_append
      (CodeBlockProcessor.collectLines_append
        (CodeBlockProcessor.collectLines_append
          (CodeBlockProcessor.collectLines_append hcoll_mand hdseg.1) hhseg.1) hfseg.1)
      hiseg.1
  have hprops : ∀ l ∈ (CodeBlockGenerator.cardBodyLines
        { url := u, title := escapeStr t, description := d.map escapeStr,
          host := h, favicon := f, image := i, indent := ind }).map String.data,
      noNl l = true ∧ CodeBlockProcessor.leadingTabs l = 0 := by
    rw [hmap]
    intro l hl
    rcases List.mem_append.1 hl with hl1 | hlI
    rotate_left
    · exact hiseg.2 l hlI
    rcases List.mem_append.1 hl1 with hl2 | hlF
    rotate_left
    · exact hfseg.2 l hlF
    rcases List.mem_append.1 hl2 with hl3 | hlH
    rotate_left
    · exact hhseg.2 l hlH
    rcases List.mem_append.1 hl3 with hlM | hlD
    rotate_left
    · exact hdseg.2 l hlD
    have hM : l = ("url: " ++ u).data ∨ l = ("title: \"" ++ escapeStr t ++ "\"").data := by
      simpa using hlM
    rcases hM with rfl | rfl
    · rw [CodeBlockProcessor.urlLine_data]
      exact ⟨CodeBlockProcessor.noNl_keyline (by decide) hu_nl, rfl⟩
    · rw [CodeBlockProcessor.titleLine_data]
      exact ⟨CodeBlockProcessor.noNl_quotedline (by decide) ht_nl, rfl⟩
  have hne_lines : (CodeBlockGenerator.cardBodyLines
        { url := u, title := escapeStr t, description := d.map escapeStr,
          host := h, favicon := f, image := i, indent := ind }).map String.data ≠ [] := by
    rw [hmap]
    simp
  have hpre : CodeBlockProcessor.preprocessSource
      (CodeBlockGenerator.joinLines (CodeBlockGenerator.cardBodyLines
        { url := u, title := escapeStr t, description := d.map escapeStr,
          host := h, favicon := f, image := i, indent := ind })) =
      (⟨CodeBlockProcessor.joinNl ((CodeBlockGenerator.cardBodyLines
        { url := u, title := escapeStr t, description := d.map escapeStr,
          host := h, favicon := f, image := i, indent := ind }).map String.data)⟩, -1) := by
    unfold CodeBlockProcessor.preprocessSource
    rw [CodeBlockProcessor.joinLines_data,
        CodeBlockProcessor.splitLinesJS_joinNl _ (fun l hl => (hprops l hl).1) hne_lines,
        CodeBlockProcessor.preprocessLines_id _ (fun l hl => (hprops l hl).2) (-1)]
  have happD : ∀ doc : CodeBlockProcessor.YamlDoc,
      CodeBlockProcessor.applyAll doc
        ((d.map (fun v => ("description".data, CodeBlockProcessor.YamlFieldVal.strV v.data))).toList) =
      some { doc with description := d.or doc.description } := by
    intro doc
    cases d with
    | none => rfl
    | some dt =>
      exact (CodeBlockProcessor.applyAll_cons []
        (CodeBlockProcessor.applyKV_description doc dt.data)).trans rfl
  have happH : ∀ doc : CodeBlockProcessor.YamlDoc,
      CodeBlockProcessor.applyAll doc
        ((h.map (fun v => ("host".data, CodeBlockProcessor.YamlFieldVal.strV v.data))).toList) =
      some { doc with host := h.or doc.host } := by
    intro doc
    cases h with
    | none => rfl
    | some hx =>
      exact (CodeBlockProcessor.applyAll_cons []
        (CodeBlockProcessor.applyKV_host doc hx.data)).trans rfl
  have happF : ∀ doc : CodeBlockProcessor.YamlDoc,
      CodeBlockProcessor.applyAll doc
        ((f.map (fun v => ("favicon".data, CodeBlockProcessor.YamlFieldVal.strV v.data))).toList) =
      some { doc with favicon := f.or doc.favicon } := by
    intro doc
    cases f with
    | none => rfl
    | some fx =>
      exact (CodeBlockProcessor.applyAll_cons []
        (CodeBlockProcessor.applyKV_favicon doc fx.data)).trans rfl
  have happI : ∀ doc : CodeBlockProcessor.YamlDoc,
      CodeBlockProcessor.applyAll doc
        ((i.map (fun v => ("image".data, CodeBlockProcessor.YamlFieldVal.strV v.data))).toList) =
      some { doc with image := i.or doc.image } := by
    intro doc
    cases i with
    | none => rfl
    | some ix =>
      exact (CodeBlockProcessor.applyAll_cons []
        (CodeBlockProcessor.applyKV_image doc ix.data)).trans rfl
  have happM : CodeBlockProcessor.applyAll {}
      [("url".data, CodeBlockProcessor.YamlFieldVal.strV u.data),
       ("title".data, CodeBlockProcessor.YamlFieldVal.strV t.data)] =
      some ({ url := some u, title := some t } : CodeBlockProcessor.YamlDoc) := by
    rw [CodeBlockProcessor.applyAll_cons _ (CodeBlockProcessor.applyKV_url {} u.data),
      CodeBlockProcessor.applyAll_cons _ (CodeBlockProcessor.applyKV_title _ t.data)]
    rfl
  have hyaml : CodeBlockProcessor.parseYamlModel
      ⟨CodeBlockProcessor.joinNl ((CodeBlockGenerator.cardBodyLines
        { url := u, title := escapeStr t, description := d.map escapeStr,
          host := h, favicon := f, image := i, indent := ind }).map String.data)⟩ =
      .ok (some { url := some u, title := some t, description := d, host := h,
                  favicon := f, image := i }) := by
    unfold CodeBlockProcessor.parseYamlModel
    rw [show (⟨CodeBlockProcessor.joinNl ((CodeBlockGenerator.cardBodyLines
        { url := u, title := escapeStr t, description := d.map escapeStr,
          host := h, favicon := f, image := i, indent := ind }).map String.data)⟩ : String).data
        = CodeBlockProcessor.joinNl ((CodeBlockGenerator.cardBodyLines
        { url := u, title := escapeStr t, description := d.map escapeStr,
          host := h, favicon := f, image := i, indent := ind }).map String.data) from rfl]
    rw [CodeBlockProcessor.splitOnNl_joinNl _
      (fun l hl => CodeBlockProcessor.not_mem_nl_of_noNl (hprops l hl).1) hne_lines]
    rw [hcoll]
    show (match CodeBlockProcessor.applyAll {}
        ([("url".data, CodeBlockProcessor.YamlFieldVal.strV u.data),
          ("title".data, CodeBlockProcessor.YamlFieldVal.strV t.data)]
          ++ (d.map (fun v => ("description".data, CodeBlockProcessor.YamlFieldVal.strV v.data))).toList
          ++ (h.map (fun v => ("host".data, CodeBlockProcessor.YamlFieldVal.strV v.data))).toList
          ++ (f.map (fun v => ("favicon".data, CodeBlockProcessor.YamlFieldVal.strV v.data))).toList
          ++ (i.map (fun v => ("image".data, CodeBlockProcessor.YamlFieldVal.strV v.data))).toList) with
      | none => Except.error ()
      | some doc => Except.ok (some doc)) = _
    have ha1 := (CodeBlockProcessor.applyAll_append happM).trans (happD _)
    have ha2 := (CodeBlockProcessor.applyAll_append ha1).trans (happH _)
    have ha3 := (CodeBlockProcessor.applyAll_append ha2).trans (happF _)
    have ha4 := (CodeBlockProcessor.applyAll_append ha3).trans (happI _)
    rw [ha4]
    simp [Option.or_none]
  unfold CodeBlockProcessor.parseLinkMetadataFromYaml
  rw [hpre, hyaml]
  simp [hu_ne, ht_ne]

/-- C1 witness: a concrete record with every field present round-trips,
the quoted fields through escape/unescape; the plain fields are
string-shaped scalars (an unquoted internal-link image such as
`[[im.png]]` would be handed back as a non-string and is excluded by the
hypotheses). -/
theorem c1_escape_roundtrip_witness :
    CodeBlockProcessor.parseLinkMetadataFromYaml
        (innerOfBlock (CodeBlockGenerator.genCodeBlock
          { url := "https://a.bc", title := escapeStr "T \"q\"",
            description := (some "D\\e").map escapeStr, host := some "a.bc",
            favicon := some "https://a.bc/f.ico", image := some "https://a.bc/i.png",
            indent := 0 })) =
      .ok { url := "https://a.bc", title := "T \"q\"", description := some "D\\e",
            host := some "a.bc", favicon := some "https://a.bc/f.ico",
            image := some "https://a.bc/i.png", indent := -1 } :=
  c1_escape_roundtrip "https://a.bc" "T \"q\"" (some "D\\e") (some "a.bc")
    (some "https://a.bc/f.ico") (some "https://a.bc/i.png") 0
    (by decide) (by decide) (by decide) (by decide) (by decide) (by decide)

/-- C1 counterexample: a record whose title stores the escaped form of a
quote does not come back with a strictly equal title: the parsed title is
the unescaped text. -/
theorem c1_counterexample :
    CodeBlockProcessor.parseLinkMetadataFromYaml
        (innerOfBlock (CodeBlockGenerator.genCodeBlock
          { url := "https://example.com", title := "a\\\"b", indent := 0 })) =
      .ok { url := "https://example.com", title := "a\"b", indent := -1 } ∧
    ("a\"b" : String) ≠ "a\\\"b" := by
  constructor
  · decide
  · decide

/-- C9 witness: the position of index 4 in a two-line content. -/
theorem c9_editor_position_witness :
    4 ≤ ("ab\ncd" : String).data.length ∧
    EditorExtensions.getEditorPositionFromIndex "ab\ncd" 4 =
      ((("ab\ncd" : String).data.take 4).count '\n',
        ((("ab\ncd" : String).data.take 4).reverse.takeWhile (fun c => c != '\n')).length) :=
  ⟨by decide, c9_editor_position "ab\ncd" 4 (by decide)⟩
